import Mathlib

/-!
Verification development for the BFFFS storage core.

The definitions below are shallow embeddings of the Rust source:
`Compression::compress` and the `DML` trait (src/bfffs-core/src/dml.rs),
`DDML` (src/bfffs-core/src/ddml/ddml.rs), `IDML`
(src/src/common/idml.rs), `Mirror::write_at` (src/bfffs-core/src/mirror.rs),
`VdevFile::write_at` / `writev_at` (src/bfffs-core/src/vdev_file.rs),
`IDML::advance_transaction` (src/src/common/idml.rs) and the copy-on-write
B+-tree `range_delete` (src/src/common/tree/mod.rs).

Machine integers are modelled as `Nat` with explicit `% 2^w` where overflow
matters.  Fallible code returns `Option` (for assertion or index failures,
i.e. aborts) or `Except Errno` (for recoverable errors).  External black-box
codecs (the BLOSC compressors, MetroHash64) are passed in as function
parameters, as the specification treats them as opaque byte-for-byte codecs.
-/

namespace BFFFS

/-- Bytes per logical block (`BYTES_PER_LBA`); the default 4096 given by the
specification's data model. -/
def BYTES_PER_LBA : Nat := 4096

/-- Rust `usize::div_ceil`: ceiling division on natural numbers. -/
def divCeil (a b : Nat) : Nat := (a + b - 1) / b

/-- Byte buffers (`IoVec` / `DivBuf` contents) as lists of byte values. -/
abbrev Bytes : Type := List Nat

/-- The error numbers used by the embedded operations (`nix::errno::Errno`
values exposed by the source). -/
inductive Errno where
  | ENOENT
  | EINTEGRITY
  | EPIPE
deriving DecidableEq, Repr

/-- Physical Block Address: pair `(cluster, lba)` identifying a location in a
Pool. -/
structure PBA where
  cluster : Nat
  lba : Nat
deriving DecidableEq, Repr

/-- Direct Record Pointer, as constructed by `DDML::put_common`:
`{pba, compressed, lsize, csize, checksum}` with `lsize`/`csize` stored as
`u32` (hence kept reduced modulo `2^32`). -/
structure DRP where
  pba : PBA
  compressed : Bool
  lsize : Nat
  csize : Nat
  checksum : Nat
deriving DecidableEq, Repr

/-- Allocated on-disk size of a record in LBAs: `ceil(csize / BYTES_PER_LBA)`
(spec data model; `DRP::asize` in the source). -/
def DRP.asize (d : DRP) : Nat := divCeil d.csize BYTES_PER_LBA

/-- Compression mode (`Compression` in src/bfffs-core/src/dml.rs).  The
`typesize` is passed verbatim to the BLOSC codec. -/
inductive Compression where
  | none
  | lz4 (typesize : Option Nat)
  | zstd (typesize : Option Nat)
deriving DecidableEq, Repr

/-- `Compression::is_compressed`: does this algorithm compress at all? -/
def Compression.is_compressed (c : Compression) : Bool :=
  c ≠ Compression.none

/-- `Compression::compress` (src/bfffs-core/src/dml.rs).  `codec` is the
black-box BLOSC compressor selected by the variant (the `ctx.compress` call);
the control flow around it is translated from the source: buffers that are
`None`-compressed or no longer than one LBA are returned unchanged, and the
codec output is kept only when it occupies strictly fewer whole LBAs than the
input. -/
def Compression.compress (codec : Compression → Bytes → Bytes)
    (self : Compression) (input : Bytes) : Bytes × Compression :=
  let lsize := input.length
  if self = Compression.none ∨ lsize ≤ BYTES_PER_LBA then
    (input, Compression.none)
  else
    let v := codec self input
    let compressed_lbas := divCeil v.length BYTES_PER_LBA
    let uncompressed_lbas := divCeil lsize BYTES_PER_LBA
    if compressed_lbas < uncompressed_lbas then
      (v, self)
    else
      (input, Compression.none)

/-- `DDML::put_common` (src/bfffs-core/src/ddml/ddml.rs), at the byte level.
The value has already been serialized to `serialized`.  The function asserts
`serialized.len() < u32::MAX` (returning `none` models the assertion abort),
compresses, checksums with the black-box `hash` (MetroHash64 over the on-disk
bytes), writes through the Pool (modelled by `poolWrite`, which returns the
allocated PBA) and constructs the DRP, with `lsize` and `csize` cast to
`u32`. -/
def put_common (hash : Bytes → Nat) (codec : Compression → Bytes → Bytes)
    (poolWrite : Bytes → PBA) (compression : Compression)
    (serialized : Bytes) : Option DRP :=
  if serialized.length < 2 ^ 32 - 1 then
    let lsize := serialized.length
    let p := Compression.compress codec compression serialized
    let compressed_db := p.1
    let compressed := p.2.is_compressed
    let csize := compressed_db.length % 2 ^ 32
    let checksum := hash compressed_db
    let pba := poolWrite compressed_db
    some { pba := pba, compressed := compressed, lsize := lsize % 2 ^ 32,
           csize := csize, checksum := checksum }
  else
    Option.none

/-- `IDML::advance_transaction` (src/src/common/idml.rs): under the txg write
lock, read the current txg `T`, run `f T`, and on success increment the
counter to `T + 1`; on failure the error propagates and the counter is left
at `T` (the new state is reported in the result, so an error leaves the
caller with the old counter). -/
def advance_transaction (f : Nat → Except Errno Unit) (txg : Nat) :
    Except Errno Nat :=
  match f txg with
  | Except.ok _ => Except.ok (txg + 1)
  | Except.error e => Except.error e

/-- Collect the unordered completions of the per-child writes
(`FuturesUnordered::try_collect` in `Mirror::write_at`): succeeds exactly
when every child write succeeded, otherwise surfaces a child's error. -/
def collectWrites : List (Except Errno Unit) → Except Errno Unit
  | [] => Except.ok ()
  | r :: rest =>
    match r with
    | Except.ok _ => collectWrites rest
    | Except.error e => Except.error e

/-- A `Mirror` holds an ordered list of child vdevs (`blockdevs`). -/
structure Mirror (γ : Type) where
  blockdevs : List γ
deriving Repr

/-- `Mirror::write_at` (src/bfffs-core/src/mirror.rs): issue `write_at` on
every child with the same buffer and LBA and collect all completions. -/
def Mirror.write_at (m : Mirror γ) (w : γ → Bytes → Nat → Except Errno Unit)
    (buf : Bytes) (lba : Nat) : Except Errno Unit :=
  collectWrites (m.blockdevs.map (fun blockdev => w blockdev buf lba))

/-- `LABEL_COUNT`: two rotating on-disk label copies per vdev (spec, external
interfaces). -/
def LABEL_COUNT : Nat := 2

/-- The state of a `VdevFile` that the reserved-space computation reads:
its spacemap size in LBAs. -/
structure VdevFile where
  spacemap_space : Nat
deriving DecidableEq, Repr

/-- `VdevFile::reserved_space` (src/bfffs-core/src/vdev_file.rs):
`LABEL_COUNT * (LABEL_LBAS + spacemap_space)`.  `LABEL_LBAS` is a constant of
the label module, kept as a parameter here. -/
def VdevFile.reserved_space (labelLbas : Nat) (v : VdevFile) : Nat :=
  LABEL_COUNT * (labelLbas + v.spacemap_space)

/-- `VdevFile::write_at` (src/bfffs-core/src/vdev_file.rs): asserts
`lba >= reserved_space` ("Don't overwrite the labels!"), then issues the AIO
write at byte offset `lba * BYTES_PER_LBA`.  `none` models the assertion
abort; `some` carries the byte offset and buffer handed to the kernel. -/
def VdevFile.write_at (labelLbas : Nat) (v : VdevFile) (buf : Bytes)
    (lba : Nat) : Option (Nat × Bytes) :=
  if v.reserved_space labelLbas ≤ lba then
    some (lba * BYTES_PER_LBA, buf)
  else
    Option.none

/-- `VdevFile::writev_at` (src/bfffs-core/src/vdev_file.rs): same assertion,
scatter/gather variant. -/
def VdevFile.writev_at (labelLbas : Nat) (v : VdevFile) (sglist : List Bytes)
    (lba : Nat) : Option (Nat × List Bytes) :=
  if v.reserved_space labelLbas ≤ lba then
    some (lba * BYTES_PER_LBA, sglist)
  else
    Option.none

/-! ### Association-list maps

The RIDT, AllocT, DDML store and cache are modelled as association lists with
insert-replaces semantics; `alInsert` erases the key first, so maps built
from inserts never hold duplicate keys. -/

/-- Look up the first binding of `k`. -/
def alLookup [DecidableEq κ] (l : List (κ × β)) (k : κ) : Option β :=
  match l with
  | [] => Option.none
  | p :: rest => if p.1 = k then some p.2 else alLookup rest k

/-- Remove every binding of `k`. -/
def alErase [DecidableEq κ] (l : List (κ × β)) (k : κ) : List (κ × β) :=
  l.filter (fun p => decide (p.1 ≠ k))

/-- Bind `k` to `v`, replacing any previous binding. -/
def alInsert [DecidableEq κ] (l : List (κ × β)) (k : κ) (v : β) :
    List (κ × β) :=
  (k, v) :: alErase l k

/-! ### DDML read path (claim C3) -/

/-- Cache keys: `Key::PBA(pba)` for DDML entries, `Key::Rid(rid)` for IDML
entries. -/
inductive CacheKey where
  | pba (p : PBA)
  | rid (r : Nat)
deriving DecidableEq, Repr

/-- The shared cache, as an association list (the LRU ordering and byte
capacity play no role in the claims settled here). -/
abbrev Cache (α : Type) : Type := List (CacheKey × α)

/-- `DDML::read` (src/bfffs-core/src/ddml/ddml.rs): Pool-read the record's
`asize` LBAs (the pool is modelled as the total function `disk`, so pool I/O
errors are outside this embedding), truncate to `csize`, verify the MetroHash64
checksum (`hash` is the black-box hasher), fail with `EINTEGRITY` on mismatch,
and decompress (black-box `decomp`) exactly when the DRP is flagged
compressed. -/
def DDML.read (hash : Bytes → Nat) (decomp : Bytes → Bytes)
    (disk : PBA → Bytes) (drp : DRP) : Except Errno Bytes :=
  let dbs := (disk drp.pba).take drp.csize
  let checksum := hash dbs
  if checksum = drp.checksum then
    if drp.compressed then Except.ok (decomp dbs) else Except.ok dbs
  else
    Except.error Errno.EINTEGRITY

/-- `DDML::get` (src/bfffs-core/src/ddml/ddml.rs, via the
`cache::get_or_insert!` macro, whose cache module is not among the provided
sources; its fast/slow paths follow the specification's concurrency model):
a cache hit returns the cached value; a miss reads from disk, and only on
success deserializes and inserts the value into the cache.  The resulting
cache is returned alongside the result. -/
def DDML.get (hash : Bytes → Nat) (decomp : Bytes → Bytes)
    (disk : PBA → Bytes) (deserialize : Bytes → α) (cache : Cache α)
    (drp : DRP) : Except Errno α × Cache α :=
  match alLookup cache (CacheKey.pba drp.pba) with
  | some t => (Except.ok t, cache)
  | Option.none =>
    match DDML.read hash decomp disk drp with
    | Except.error e => (Except.error e, cache)
    | Except.ok dbs =>
      let t := deserialize dbs
      (Except.ok t, alInsert cache (CacheKey.pba drp.pba) t)

/-! ### IDML value-level model (claims C1 and C2)

`IDML` (src/src/common/idml.rs) is embedded at the level of already
deserialized record values `V`.  The DDML below it appears through
`put_direct` / `get_direct` / `pop_direct` / `delete`; since the Pool and the
byte-level DDML internals sit below this interface (and the Pool sources are
not among the provided files), the allocator is modelled from the spec as a
monotone fresh-LBA counter satisfying the allocator guarantee that
`IDML::put` asserts ("Double allocate without free"), and records are stored
by PBA.  Serialization, compression sizes and checksums belong to the
byte-level embedding above and are not tracked here; the `lsize`, `csize`
and `checksum` fields of generated DRPs are left zero. -/

/-- `RidtEntry` (src/src/common/idml.rs): the record's physical location and
live-reference count. -/
structure RidtEntry where
  drp : DRP
  refcount : Nat
deriving DecidableEq, Repr

/-- Value-level DDML state: allocated records by PBA plus the fresh-LBA
allocator counter (Pool model, see above). -/
structure DdmlState (V : Type) where
  store : List (PBA × V)
  next_lba : Nat
deriving DecidableEq, Repr

/-- `DDML::put_direct` at the value level: allocate a fresh PBA, store the
record, and return its DRP. -/
def DdmlState.put_direct (d : DdmlState V) (v : V) (compressed : Bool) :
    DRP × DdmlState V :=
  let pba : PBA := ⟨0, d.next_lba⟩
  let drp : DRP :=
    { pba := pba, compressed := compressed, lsize := 0, csize := 0,
      checksum := 0 }
  (drp, { store := alInsert d.store pba v, next_lba := d.next_lba + 1 })

/-- `DDML::delete` / `delete_direct` at the value level: free the record's
storage. -/
def DdmlState.delete (d : DdmlState V) (drp : DRP) : DdmlState V :=
  { store := alErase d.store drp.pba, next_lba := d.next_lba }

/-- The `IDML` state: RIDT, AllocT, the `Key::Rid`-keyed slice of the shared
cache, the DDML below, and the `next_rid` counter. -/
structure IdmlState (V : Type) where
  ridt : List (Nat × RidtEntry)
  alloct : List (PBA × Nat)
  cache : List (Nat × V)
  ddml : DdmlState V
  next_rid : Nat
deriving DecidableEq, Repr

/-- A freshly created `IDML` (`IDML::create`): empty trees, empty cache,
zeroed counters. -/
def IdmlState.empty (V : Type) : IdmlState V :=
  { ridt := [], alloct := [], cache := [], ddml := ⟨[], 0⟩, next_rid := 0 }

/-- `IDML::put` (src/src/common/idml.rs): allocate the next RID, write the
record through `ddml.put_direct`, insert `RID → RidtEntry{drp, 1}` into the
RIDT and `drp.pba → rid` into the AllocT — asserting that neither entry
existed — and cache the value under `Key::Rid(rid)`.  `none` models an
assertion abort. -/
def IDML.put (v : V) (compression : Compression) (txg : Nat)
    (s : IdmlState V) : Option (Except Errno (Nat × IdmlState V)) :=
  let rid := s.next_rid
  let pd := s.ddml.put_direct v compression.is_compressed
  let drp := pd.1
  if (alLookup s.ridt rid).isSome then
    Option.none
  else if (alLookup s.alloct drp.pba).isSome then
    Option.none
  else
    some (Except.ok (rid,
      { ridt := alInsert s.ridt rid ⟨drp, 1⟩,
        alloct := alInsert s.alloct drp.pba rid,
        cache := alInsert s.cache rid v,
        ddml := pd.2,
        next_rid := s.next_rid + 1 }))

/-- `IDML::delete` (src/src/common/idml.rs): decrement the refcount; at zero,
remove the cache entry, free the DRP through the DDML, and remove both the
AllocT entry (asserting it existed) and the RIDT entry; otherwise re-insert
the decremented entry.  The refcount decrement underflowing (refcount 0 in
the table) is a debug abort, modelled as `none`. -/
def IDML.delete (rid txg : Nat) (s : IdmlState V) :
    Option (Except Errno (Unit × IdmlState V)) :=
  match alLookup s.ridt rid with
  | Option.none => some (Except.error Errno.ENOENT)
  | some entry =>
    if entry.refcount = 0 then
      Option.none
    else if entry.refcount - 1 = 0 then
      if (alLookup s.alloct entry.drp.pba).isSome then
        some (Except.ok ((),
          { ridt := alErase s.ridt rid,
            alloct := alErase s.alloct entry.drp.pba,
            cache := alErase s.cache rid,
            ddml := s.ddml.delete entry.drp,
            next_rid := s.next_rid }))
      else
        Option.none
    else
      some (Except.ok ((),
        { s with ridt := alInsert s.ridt rid ⟨entry.drp, entry.refcount - 1⟩ }))

/-- `IDML::pop` (src/src/common/idml.rs): decrement the refcount.  At zero,
remove the value from the cache (`ddml.delete` frees the storage) or, on a
cache miss, `ddml.pop_direct` (read, then free); remove both the AllocT entry
(asserting it existed) and the RIDT entry, and return the value.  Otherwise
re-insert the decremented entry and return the value obtained from the cache
or, on a miss, via `ddml.get_direct`. -/
def IDML.pop (rid txg : Nat) (s : IdmlState V) :
    Option (Except Errno (V × IdmlState V)) :=
  match alLookup s.ridt rid with
  | Option.none => some (Except.error Errno.ENOENT)
  | some entry =>
    if entry.refcount = 0 then
      Option.none
    else if entry.refcount - 1 = 0 then
      match alLookup s.cache rid with
      | some v =>
        if (alLookup s.alloct entry.drp.pba).isSome then
          some (Except.ok (v,
            { ridt := alErase s.ridt rid,
              alloct := alErase s.alloct entry.drp.pba,
              cache := alErase s.cache rid,
              ddml := s.ddml.delete entry.drp,
              next_rid := s.next_rid }))
        else
          Option.none
      | Option.none =>
        match alLookup s.ddml.store entry.drp.pba with
        | Option.none => some (Except.error Errno.ENOENT)
        | some v =>
          if (alLookup s.alloct entry.drp.pba).isSome then
            some (Except.ok (v,
              { ridt := alErase s.ridt rid,
                alloct := alErase s.alloct entry.drp.pba,
                cache := alErase s.cache rid,
                ddml := ⟨alErase s.ddml.store entry.drp.pba, s.ddml.next_lba⟩,
                next_rid := s.next_rid }))
          else
            Option.none
    else
      let newEntry : RidtEntry := ⟨entry.drp, entry.refcount - 1⟩
      match alLookup s.cache rid with
      | some v =>
        some (Except.ok (v, { s with ridt := alInsert s.ridt rid newEntry }))
      | Option.none =>
        match alLookup s.ddml.store entry.drp.pba with
        | some v =>
          some (Except.ok (v,
            { s with ridt := alInsert s.ridt rid newEntry }))
        | Option.none => some (Except.error Errno.ENOENT)

/-- `IDML::move_record` (src/src/common/idml.rs): look up the RIDT entry
(aborting on the "Inconsistency in alloct" expectation if missing), obtain
the record from the cache or `ddml.get_direct`, rewrite it via
`ddml.put_direct` with the entry's own compression, and insert the updated
RIDT entry and the new AllocT entry.  Note that the AllocT entry for the old
PBA is not removed. -/
def IDML.move_record (rid txg : Nat) (s : IdmlState V) :
    Option (Except Errno (Unit × IdmlState V)) :=
  match alLookup s.ridt rid with
  | Option.none => Option.none
  | some entry =>
    match (alLookup s.cache rid).orElse
        (fun _ => alLookup s.ddml.store entry.drp.pba) with
    | Option.none => some (Except.error Errno.ENOENT)
    | some buf =>
      let pd := s.ddml.put_direct buf entry.drp.compressed
      let drp := pd.1
      some (Except.ok ((),
        { s with
          ridt := alInsert s.ridt rid ⟨drp, entry.refcount⟩,
          alloct := alInsert s.alloct drp.pba rid,
          ddml := pd.2 }))

/-- The RIDT/AllocT mutual-consistency invariant of the specification:
every RIDT entry with positive refcount is mapped back by the AllocT from
its DRP's PBA, and every AllocT entry points at a RIDT entry whose DRP
carries exactly that PBA. -/
def Inv (s : IdmlState V) : Prop :=
  (∀ p ∈ s.ridt, 0 < p.2.refcount →
    alLookup s.alloct p.2.drp.pba = some p.1) ∧
  (∀ q ∈ s.alloct,
    (alLookup s.ridt q.2).map (fun e => e.drp.pba) = some q.1)

/-- Auxiliary allocator-freshness facts carried through the induction:
every PBA recorded anywhere is strictly below the allocation counter, and
every RID is strictly below `next_rid`. -/
def Fresh (s : IdmlState V) : Prop :=
  (∀ q ∈ s.alloct, q.1.lba < s.ddml.next_lba) ∧
  (∀ q ∈ s.ddml.store, q.1.lba < s.ddml.next_lba) ∧
  (∀ p ∈ s.ridt, p.1 < s.next_rid ∧ p.2.drp.pba.lba < s.ddml.next_lba)

/-- States reachable from the empty IDML by successfully completing `put`,
`delete` and `pop` operations. -/
inductive Reach : IdmlState V → Prop where
  | empty : Reach (IdmlState.empty V)
  | put (s : IdmlState V) (v : V) (compression : Compression) (txg rid : Nat)
      (t : IdmlState V) : Reach s →
      IDML.put v compression txg s = some (Except.ok (rid, t)) → Reach t
  | delete (s : IdmlState V) (rid txg : Nat) (t : IdmlState V) : Reach s →
      IDML.delete rid txg s = some (Except.ok ((), t)) → Reach t
  | pop (s : IdmlState V) (rid txg : Nat) (v : V) (t : IdmlState V) :
      Reach s →
      IDML.pop rid txg s = some (Except.ok (v, t)) → Reach t

/-! ### Copy-on-write B+-tree `range_delete` (claim C8)

The tree (src/src/common/tree/mod.rs) is embedded at the content level: a
node is a leaf holding key-value items or an internal node holding `IntElem`
entries `(key, child)`.  The `TreePtr` wrapper is dropped — `xlock`
materializes an `Addr` child into the same in-memory node content, and txg
ranges do not influence `range_delete` — so every child is held directly.
The node-level operations from `tree/node.rs` (which is not among the
provided sources) are modelled from the spec where marked.  Recursion uses
explicit fuel; exhausted fuel returns `none`, the same signal as an aborted
(panicking) execution, and the settled claim conditions on completion. -/

/-- A tree node: leaf items, or internal `IntElem` children. -/
inductive TNode (K V : Type) where
  | leaf (items : List (K × V))
  | int (children : List (K × TNode K V))
deriving Repr

/-- One end of a Rust `RangeBounds`. -/
inductive RBound (K : Type) where
  | unbounded
  | included (t : K)
  | excluded (t : K)
deriving Repr, DecidableEq

/-- A Rust key range: start bound and end bound. -/
abbrev KRange (K : Type) : Type := RBound K × RBound K

/-- The start bound admits `k`. -/
def startContains [LinearOrder K] : RBound K → K → Bool
  | RBound.unbounded, _ => true
  | RBound.included t, k => decide (t ≤ k)
  | RBound.excluded t, k => decide (t < k)

/-- The end bound admits `k`. -/
def endContains [LinearOrder K] : RBound K → K → Bool
  | RBound.unbounded, _ => true
  | RBound.included t, k => decide (k ≤ t)
  | RBound.excluded t, k => decide (k < t)

/-- Rust `RangeBounds::contains`. -/
def rangeContains [LinearOrder K] (r : KRange K) (k : K) : Bool :=
  startContains r.1 k && endContains r.2 k

mutual

/-- The in-order key-value pairs stored in the tree's leaves. -/
def TNode.pairs {K V : Type} : TNode K V → List (K × V)
  | TNode.leaf items => items
  | TNode.int children => pairsChildren children

def pairsChildren {K V : Type} : List (K × TNode K V) → List (K × V)
  | [] => []
  | c :: rest => TNode.pairs c.2 ++ pairsChildren rest

end

mutual

/-- Every key appearing in the tree: `IntElem` keys and leaf keys. -/
def TNode.keyList {K V : Type} : TNode K V → List K
  | TNode.leaf items => items.map Prod.fst
  | TNode.int children => keyListChildren children

def keyListChildren {K V : Type} : List (K × TNode K V) → List K
  | [] => []
  | c :: rest => c.1 :: (TNode.keyList c.2 ++ keyListChildren rest)

end

/-- The structural invariants of the tree that `range_delete` relies on
(spec, data model): `IntElem` keys strictly increase, each child's keys are
at least its `IntElem` key, and each child's keys are below the next
`IntElem` key. -/
inductive WF [LinearOrder K] : TNode K V → Prop where
  | leaf (items : List (K × V)) : WF (TNode.leaf items)
  | int (children : List (K × TNode K V))
      (hne : children ≠ [])
      (hsorted : List.Pairwise (fun a b => a.1 < b.1) children)
      (hlb : ∀ i (h : i < children.length),
        ∀ k ∈ TNode.keyList (children.get ⟨i, h⟩).2,
          (children.get ⟨i, h⟩).1 ≤ k)
      (hub : ∀ i (h : i < children.length) (h2 : i + 1 < children.length),
        ∀ k ∈ TNode.keyList (children.get ⟨i, h⟩).2,
          k < (children.get ⟨i + 1, h2⟩).1)
      (hrec : ∀ c ∈ children, WF c.2) :
      WF (TNode.int children)

/-- All keys of the node are below the upper bound, when there is one
(`ubound` is the first key of the node immediately to the right). -/
def SubUB [LinearOrder K] (t : TNode K V) (ub : Option K) : Prop :=
  ∀ u, ub = some u → ∀ k ∈ TNode.keyList t, k < u

/-- Modelled from the spec: position search uses the last `children[i]` with
`children[i].key ≤ k` (`tree/node.rs` is not among the provided sources).
Computed as the length of the leading run of keys `≤ k` minus one, which
under the sorted-keys invariant is exactly that index; 0 when no key
qualifies. -/
def position [LinearOrder K] (children : List (K × α)) (k : K) : Nat :=
  (children.takeWhile (fun c => decide (c.1 ≤ k))).length - 1

/-- Modelled from the spec: `LeafData::range_delete` removes every item of
the leaf whose key lies in the range (`tree/node.rs` is not among the
provided sources). -/
def leafRangeDelete [LinearOrder K] (r : KRange K) (items : List (K × V)) :
    List (K × V) :=
  items.filter (fun p => ! rangeContains r p.1)

/-- `Tree::range_delete_get_bounds` (src/src/common/tree/mod.rs): the
bounds, as indices, of the affected children of an internal node.  The
node's `key()` is its first child's key; an empty internal node aborts. -/
def range_delete_get_bounds [LinearOrder K] (children : List (K × TNode K V))
    (r : KRange K) (ubound : Option K) :
    Option (RBound Nat × RBound Nat) :=
  match children.head? with
  | Option.none => Option.none
  | some c0 =>
    let l := children.length
    let start_idx_bound : RBound Nat :=
      match r.1 with
      | RBound.unbounded => RBound.included 0
      | RBound.included t =>
        if t < c0.1 then RBound.included 0
        else
          let idx := position children t
          if (children.getD idx c0).1 = t then RBound.included idx
          else RBound.excluded idx
      | RBound.excluded t =>
        if t < c0.1 then RBound.included 0
        else RBound.excluded (position children t)
    let end_idx_bound : RBound Nat :=
      match r.2 with
      | RBound.unbounded => RBound.excluded (l + 1)
      | RBound.included t =>
        let idx := position children t
        let ubHit : Bool :=
          match ubound with
          | some u => decide (u ≤ t)
          | Option.none => false
        if ubHit then RBound.excluded (idx + 1)
        else RBound.included idx
      | RBound.excluded t =>
        let idx := position children t
        let ubHit : Bool :=
          match ubound with
          | some u => decide (u ≤ t)
          | Option.none => false
        if ubHit then RBound.excluded (idx + 1)
        else if (children.getD idx c0).1 = t then RBound.excluded idx
        else RBound.included idx
    some (start_idx_bound, end_idx_bound)

/-- `xlock` the child at `i`, recurse with `pass`, and store the updated
child back (the in-place guard mutation of the source). -/
def passRecurse (pass : TNode K V → Option K → Option (TNode K V))
    (children : List (K × TNode K V)) (i : Nat) (ub : Option K) :
    Option (List (K × TNode K V)) :=
  match children.get? i with
  | Option.none => Option.none
  | some c =>
    match pass c.2 ub with
    | Option.none => Option.none
    | some c2 => some (children.set i (c.1, c2))

/-- `Tree::range_delete_pass1` (src/src/common/tree/mod.rs): depth-first
traversal deleting keys without reshaping the tree.  Leaves drop their
in-range items; an internal node recurses into at most two boundary
children and then wholesale-drains the children strictly inside the range
(`Vec::drain(low..high)`, aborting when the range end exceeds the length,
as the source would on an unbounded end bound). -/
def range_delete_pass1 [LinearOrder K] (fuel : Nat) (t : TNode K V)
    (r : KRange K) (ubound : Option K) : Option (TNode K V) :=
  match fuel with
  | 0 => Option.none
  | fuel + 1 =>
    match t with
    | TNode.leaf items => some (TNode.leaf (leafRangeDelete r items))
    | TNode.int children =>
      match range_delete_get_bounds children r ubound with
      | Option.none => Option.none
      | some (sb, eb) =>
        let l := children.length
        let pass := fun (t2 : TNode K V) (ub : Option K) =>
          range_delete_pass1 fuel t2 r ub
        let step : Option (List (K × TNode K V)) :=
          match sb, eb with
          | RBound.included _, RBound.excluded _ => some children
          | RBound.included _, RBound.included j =>
            passRecurse pass children j
              (if j < l - 1 then (children.get? (j + 1)).map Prod.fst
               else ubound)
          | RBound.excluded i, RBound.excluded _ =>
            passRecurse pass children i
              (if i < l - 1 then (children.get? (i + 1)).map Prod.fst
               else ubound)
          | RBound.excluded i, RBound.included j =>
            if j > i then
              match passRecurse pass children i
                  ((children.get? (i + 1)).map Prod.fst) with
              | Option.none => Option.none
              | some cs1 =>
                passRecurse pass cs1 j
                  (if j < l - 1 then (children.get? (j + 1)).map Prod.fst
                   else ubound)
            else
              passRecurse pass children i
                (if i < l - 1 then (children.get? (i + 1)).map Prod.fst
                 else ubound)
          | RBound.unbounded, _ => Option.none
          | _, RBound.unbounded => Option.none
        match step with
        | Option.none => Option.none
        | some cs2 =>
          let low? : Option Nat :=
            match sb with
            | RBound.excluded i => some (i + 1)
            | RBound.included i => some i
            | RBound.unbounded => Option.none
          let high? : Option Nat :=
            match eb with
            | RBound.excluded j => some j
            | RBound.included j => some j
            | RBound.unbounded => Option.none
          match low?, high? with
          | some low, some high =>
            if high > low then
              if high ≤ cs2.length then
                some (TNode.int (cs2.take low ++ cs2.drop high))
              else
                Option.none
            else
              some (TNode.int cs2)
          | _, _ => Option.none

/-- The number of entries in a node. -/
def nodeLen : TNode K V → Nat
  | TNode.leaf items => items.length
  | TNode.int children => children.length

/-- Modelled from the spec: a node is underfull when it holds fewer than
`limit` entries (`tree/node.rs` is not among the provided sources). -/
def underflow (t : TNode K V) (limit : Nat) : Bool :=
  decide (nodeLen t < limit)

/-- Modelled from the spec: two sibling nodes may merge when their combined
size stays within `max_fanout`. -/
def can_merge (a b : TNode K V) (max_fanout : Nat) : Bool :=
  decide (nodeLen a + nodeLen b ≤ max_fanout)

/-- Modelled from the spec: merging concatenates the two siblings' entries;
nodes of different kinds cannot merge (the source's downcast would abort). -/
def nodeMerge : TNode K V → TNode K V → Option (TNode K V)
  | TNode.leaf a, TNode.leaf b => some (TNode.leaf (a ++ b))
  | TNode.int a, TNode.int b => some (TNode.int (a ++ b))
  | _, _ => Option.none

/-- Modelled from the spec: stealing from the right sibling moves the low
half of its surplus entries onto the end of the child. -/
def take_low_keys (child sib : TNode K V) :
    Option (TNode K V × TNode K V) :=
  match child, sib with
  | TNode.leaf a, TNode.leaf b =>
    let m := (b.length - a.length) / 2
    some (TNode.leaf (a ++ b.take m), TNode.leaf (b.drop m))
  | TNode.int a, TNode.int b =>
    let m := (b.length - a.length) / 2
    some (TNode.int (a ++ b.take m), TNode.int (b.drop m))
  | _, _ => Option.none

/-- Modelled from the spec: stealing from the left sibling moves the high
half of its surplus entries onto the front of the child. -/
def take_high_keys (child sib : TNode K V) :
    Option (TNode K V × TNode K V) :=
  match child, sib with
  | TNode.leaf a, TNode.leaf b =>
    let m := (b.length - a.length) / 2
    some (TNode.leaf (b.drop (b.length - m) ++ a),
          TNode.leaf (b.take (b.length - m)))
  | TNode.int a, TNode.int b =>
    let m := (b.length - a.length) / 2
    some (TNode.int (b.drop (b.length - m) ++ a),
          TNode.int (b.take (b.length - m)))
  | _, _ => Option.none

/-- `Node::key()`: the node's first key; aborts on an empty node. -/
def nodeKey : TNode K V → Option K
  | TNode.leaf items => items.head?.map Prod.fst
  | TNode.int children => children.head?.map Prod.fst

/-- `Tree::fix_int` (src/src/common/tree/mod.rs): fix the child at
`child_idx`, trying merge-right, steal-right, merge-left, steal-left in
that order; returns the updated children plus the numbers the source
reports as nodes merged before and after the child. -/
def fix_int (max_fanout : Nat) (children : List (K × TNode K V))
    (child_idx : Nat) : Option (List (K × TNode K V) × Nat × Nat) :=
  match children.get? child_idx with
  | Option.none => Option.none
  | some child =>
    let nchildren := children.length
    if child_idx < nchildren - 1 then
      let sib_idx := child_idx + 1
      match children.get? sib_idx with
      | Option.none => Option.none
      | some sibling =>
        if can_merge child.2 sibling.2 max_fanout then
          match nodeMerge child.2 sibling.2 with
          | Option.none => Option.none
          | some merged =>
            some ((children.set child_idx (child.1, merged)).eraseIdx
              sib_idx, 0, 1)
        else
          match take_low_keys child.2 sibling.2 with
          | Option.none => Option.none
          | some p =>
            match nodeKey p.2 with
            | Option.none => Option.none
            | some sibKey =>
              some ((children.set child_idx (child.1, p.1)).set sib_idx
                (sibKey, p.2), 0, 0)
    else
      if child_idx = 0 then Option.none
      else
        let sib_idx := child_idx - 1
        match children.get? sib_idx with
        | Option.none => Option.none
        | some sibling =>
          if can_merge sibling.2 child.2 max_fanout then
            match nodeMerge sibling.2 child.2 with
            | Option.none => Option.none
            | some merged =>
              some ((children.set sib_idx (sibling.1, merged)).eraseIdx
                child_idx, 1, 0)
          else
            match take_high_keys child.2 sibling.2 with
            | Option.none => Option.none
            | some p =>
              match nodeKey p.1 with
              | Option.none => Option.none
              | some childKey =>
                some ((children.set sib_idx (sibling.1, p.2)).set child_idx
                  (childKey, p.1), 1, 1)

/-- `Tree::fix_if_in_danger` (src/src/common/tree/mod.rs): fix the child if
it underflows the relaxed `b − 1` limit, or if enough of its grandchildren
are in the cut to endanger it. -/
def fix_if_in_danger [LinearOrder K] (min_fanout max_fanout : Nat)
    (children : List (K × TNode K V)) (child_idx : Nat) (r : KRange K)
    (ubound : Option K) : Option (List (K × TNode K V) × Nat × Nat) :=
  match children.get? child_idx with
  | Option.none => Option.none
  | some child =>
    if underflow child.2 (min_fanout - 1) then
      fix_int max_fanout children child_idx
    else
      match child.2 with
      | TNode.leaf _ => some (children, 0, 0)
      | TNode.int gcs =>
        match range_delete_get_bounds gcs r ubound with
        | Option.none => Option.none
        | some (sb, eb) =>
          let cut? : Option Nat :=
            match sb, eb with
            | RBound.included _, RBound.excluded _ => some 0
            | RBound.included _, RBound.included _ => some 1
            | RBound.excluded _, RBound.excluded _ => some 1
            | RBound.excluded i, RBound.included j =>
              if j > i then some 2 else some 1
            | _, _ => Option.none
          match cut? with
          | Option.none => Option.none
          | some cut =>
            if cut > gcs.length then Option.none
            else if gcs.length - cut ≤ min_fanout - 1 then
              fix_int max_fanout children child_idx
            else
              some (children, 0, 0)

/-- The `fixit` closure of `Tree::range_delete_pass2`: fix the child at
`idx` if it is in danger, then recurse (`pass`) into the child at
`idx − merged_before`, returning the updated children and the total number
of merges. -/
def pass2Fixit [LinearOrder K]
    (pass : TNode K V → KRange K → Option K → Option (TNode K V))
    (min_fanout max_fanout : Nat) (children : List (K × TNode K V))
    (idx : Nat) (r : KRange K) (ubound : Option K) :
    Option (List (K × TNode K V) × Nat) :=
  let l := children.length
  let child_ubound :=
    if idx < l - 1 then (children.get? (idx + 1)).map Prod.fst else ubound
  match fix_if_in_danger min_fanout max_fanout children idx r
      child_ubound with
  | Option.none => Option.none
  | some (cs2, mb, ma) =>
    if mb ≤ idx then
      match cs2.get? (idx - mb) with
      | Option.none => Option.none
      | some child2 =>
        match pass child2.2 r child_ubound with
        | Option.none => Option.none
        | some c2 => some (cs2.set (idx - mb) (child2.1, c2), mb + ma)
    else
      Option.none

/-- `Tree::range_delete_pass2` (src/src/common/tree/mod.rs): traverse as in
pass 1, fixing any in-danger node top-down. -/
def range_delete_pass2 [LinearOrder K] (fuel : Nat)
    (min_fanout max_fanout : Nat) (t : TNode K V) (r : KRange K)
    (ubound : Option K) : Option (TNode K V) :=
  match fuel with
  | 0 => Option.none
  | fuel + 1 =>
    match t with
    | TNode.leaf _ => some t
    | TNode.int children =>
      match range_delete_get_bounds children r ubound with
      | Option.none => Option.none
      | some (sb, eb) =>
        let ctf : Option (Option Nat × Option Nat) :=
          match sb, eb with
          | RBound.included _, RBound.excluded _ =>
            some (Option.none, Option.none)
          | RBound.included _, RBound.included j =>
            some (Option.none, some j)
          | RBound.excluded i, RBound.excluded _ =>
            some (some i, Option.none)
          | RBound.excluded i, RBound.included j =>
            if j > i then some (some i, some j)
            else some (some i, Option.none)
          | _, _ => Option.none
        match ctf with
        | Option.none => Option.none
        | some (f1, f2) =>
          let pass := fun (t2 : TNode K V) (r2 : KRange K)
            (ub2 : Option K) =>
            range_delete_pass2 fuel min_fanout max_fanout t2 r2 ub2
          let st1 : Option (List (K × TNode K V) × Nat) :=
            match f1 with
            | Option.none => some (children, 0)
            | some idx =>
              pass2Fixit pass min_fanout max_fanout children idx r ubound
          match st1 with
          | Option.none => Option.none
          | some (cs1, merged) =>
            match f2 with
            | Option.none => some (TNode.int cs1)
            | some idx =>
              if merged ≤ idx then
                match pass2Fixit pass min_fanout max_fanout cs1
                    (idx - merged) r ubound with
                | Option.none => Option.none
                | some (cs2, _) => some (TNode.int cs2)
              else
                Option.none

/-- `Tree::merge_root` (src/src/common/tree/mod.rs): an internal root with
a single child is replaced by that child. -/
def merge_root : TNode K V → TNode K V
  | TNode.int [c] => c.2
  | t => t

/-- `Tree::range_delete` (src/src/common/tree/mod.rs): pass 1, pass 2, then
collapse the root. -/
def range_delete [LinearOrder K] (fuel min_fanout max_fanout : Nat)
    (t : TNode K V) (r : KRange K) : Option (TNode K V) :=
  match range_delete_pass1 fuel t r Option.none with
  | Option.none => Option.none
  | some t1 =>
    match range_delete_pass2 fuel min_fanout max_fanout t1 r
        Option.none with
    | Option.none => Option.none
    | some t2 => some (merge_root t2)

/-- The sequence of pairs a `range(R)` query yields: the in-order leaf
pairs whose keys lie in `R`. -/
def rangeQuery [LinearOrder K] (r : KRange K) (t : TNode K V) :
    List (K × V) :=
  (TNode.pairs t).filter (fun p => rangeContains r p.1)

/-! ## Theorems -/

/-! ### List infrastructure for the tree proofs -/

theorem takeWhile_length_le (p : α → Bool) (l : List α) :
    (l.takeWhile p).length ≤ l.length := by
  induction l with
  | nil => simp
  | cons a l ih =>
    by_cases hp : p a
    · simp [List.takeWhile_cons, hp]
      omega
    · simp [List.takeWhile_cons, hp]

theorem takeWhile_get_sat (p : α → Bool) (l : List α) {i : Nat}
    (hi : i < (l.takeWhile p).length) (hl : i < l.length) :
    p (l.get ⟨i, hl⟩) = true := by
  induction l generalizing i with
  | nil => simp at hl
  | cons a l ih =>
    by_cases hp : p a
    · cases i with
      | zero => simpa [hp]
      | succ i =>
        simp only [List.takeWhile_cons, hp, if_true, List.length_cons,
          Nat.add_lt_add_iff_right] at hi
        exact ih hi (by simpa using Nat.lt_of_succ_lt_succ hl)
    · simp [List.takeWhile_cons, hp] at hi
  -- LCOV noop

theorem takeWhile_get_fail (p : α → Bool) (l : List α) {n : Nat}
    (hn : (l.takeWhile p).length = n) (h : n < l.length) :
    p (l.get ⟨n, h⟩) = false := by
  induction l generalizing n with
  | nil => simp at h
  | cons a l ih =>
    by_cases hp : p a
    · have hcons : ((a :: l).takeWhile p).length =
          (l.takeWhile p).length + 1 := by
        simp [List.takeWhile_cons, hp]
      rw [hcons] at hn
      subst hn
      have h2 : (l.takeWhile p).length < l.length := by simpa using h
      exact ih rfl h2
    · have hcons : ((a :: l).takeWhile p).length = 0 := by
        simp [List.takeWhile_cons, hp]
      rw [hcons] at hn
      subst hn
      simpa using hp

theorem takeWhile_length_eq (p : α → Bool) (l : List α)
    (h : ∀ a ∈ l, p a = true) : (l.takeWhile p).length = l.length := by
  induction l with
  | nil => simp
  | cons a l ih =>
    have hp : p a = true := h a (List.mem_cons_self _ _)
    simp only [List.takeWhile_cons, hp, if_true, List.length_cons]
    rw [ih (fun b hb => h b (List.mem_cons_of_mem _ hb))]

theorem mem_set_cases {l : List α} {i : Nat} {b a : α}
    (h : a ∈ l.set i b) : a = b ∨ a ∈ l := by
  induction l generalizing i with
  | nil => simp at h
  | cons x l ih =>
    cases i with
    | zero =>
      simp only [List.set] at h
      rcases List.mem_cons.mp h with h1 | h1
      · exact Or.inl h1
      · exact Or.inr (List.mem_cons_of_mem _ h1)
    | succ i =>
      simp only [List.set] at h
      rcases List.mem_cons.mp h with h1 | h1
      · exact Or.inr (h1 ▸ List.mem_cons_self _ _)
      · rcases ih h1 with h2 | h2
        · exact Or.inl h2
        · exact Or.inr (List.mem_cons_of_mem _ h2)

theorem mem_eraseIdx {l : List α} {i : Nat} {a : α}
    (h : a ∈ l.eraseIdx i) : a ∈ l := by
  induction l generalizing i with
  | nil => simp [List.eraseIdx] at h
  | cons x l ih =>
    cases i with
    | zero => exact List.mem_cons_of_mem _ h
    | succ i =>
      rcases List.mem_cons.mp h with h1 | h1
      · exact h1 ▸ List.mem_cons_self _ _
      · exact List.mem_cons_of_mem _ (ih h1)

theorem mem_take_get {l : List α} {n : Nat} {a : α} (h : a ∈ l.take n) :
    ∃ m, ∃ hm : m < l.length, m < n ∧ l.get ⟨m, hm⟩ = a := by
  induction l generalizing n with
  | nil => simp at h
  | cons x l ih =>
    cases n with
    | zero => simp at h
    | succ n =>
      rcases List.mem_cons.mp h with h1 | h1
      · exact ⟨0, by simp, Nat.succ_pos _, h1.symm⟩
      · obtain ⟨m, hm, hmn, hget⟩ := ih h1
        exact ⟨m + 1, by simpa using Nat.succ_lt_succ hm,
          Nat.succ_lt_succ hmn, hget⟩

theorem mem_drop_get {l : List α} {n : Nat} {a : α} (h : a ∈ l.drop n) :
    ∃ m, ∃ hm : m < l.length, n ≤ m ∧ l.get ⟨m, hm⟩ = a := by
  induction l generalizing n with
  | nil => simp at h
  | cons x l ih =>
    cases n with
    | zero =>
      obtain ⟨⟨m, hm⟩, hget⟩ := List.mem_iff_get.mp h
      exact ⟨m, hm, Nat.zero_le _, hget⟩
    | succ n =>
      obtain ⟨m, hm, hnm, hget⟩ := ih h
      exact ⟨m + 1, by simpa using Nat.succ_lt_succ hm,
        Nat.succ_le_succ hnm, hget⟩

theorem get_set_ne {l : List α} {i j : Nat} {b : α} (hne : i ≠ j)
    (hj : j < (l.set i b).length) (hj2 : j < l.length) :
    (l.set i b).get ⟨j, hj⟩ = l.get ⟨j, hj2⟩ := by
  induction l generalizing i j with
  | nil => simp at hj2
  | cons x l ih =>
    cases i with
    | zero =>
      cases j with
      | zero => exact absurd rfl hne
      | succ j => simp [List.set]
    | succ i =>
      cases j with
      | zero => simp [List.set]
      | succ j =>
        simp only [List.set, List.get_cons_succ]
        exact ih (fun hcon => hne (by omega)) _ (by simpa using hj2)

theorem get_set_eq {l : List α} {i : Nat} {b : α}
    (hi : i < (l.set i b).length) : (l.set i b).get ⟨i, hi⟩ = b := by
  induction l generalizing i with
  | nil => simp at hi
  | cons x l ih =>
    cases i with
    | zero => rfl
    | succ i =>
      simp only [List.set, List.get_cons_succ]
      exact ih _

/-! ### Position and bound facts -/

theorem position_lt_length [LinearOrder K] (cs : List (K × α)) (k : K)
    (h : cs ≠ []) : position cs k < cs.length := by
  have h1 := takeWhile_length_le (fun c => decide (c.1 ≤ k)) cs
  have h2 : 0 < cs.length := List.length_pos.mpr h
  unfold position
  omega

theorem position_key_le [LinearOrder K] (cs : List (K × α)) (k : K)
    (hl : 0 < cs.length) (h0 : (cs.get ⟨0, hl⟩).1 ≤ k)
    (hp : position cs k < cs.length) :
    (cs.get ⟨position cs k, hp⟩).1 ≤ k := by
  have hn : ¬ (cs.takeWhile (fun c => decide (c.1 ≤ k))).length = 0 := by
    intro hz2
    have hfail := takeWhile_get_fail (fun c => decide (c.1 ≤ k)) cs hz2 hl
    simp only [decide_eq_false_iff_not] at hfail
    exact hfail h0
  have hsat := takeWhile_get_sat (fun c => decide (c.1 ≤ k)) cs
    (i := position cs k) (by unfold position; omega) hp
  simpa using hsat

theorem position_gt [LinearOrder K] (cs : List (K × α)) (k : K)
    (hsorted : List.Pairwise (fun a b => a.1 < b.1) cs) {m : Nat}
    (hm : m < cs.length) (h : position cs k < m) :
    k < (cs.get ⟨m, hm⟩).1 := by
  have hpw := List.pairwise_iff_get.mp hsorted
  set n := (cs.takeWhile (fun c => decide (c.1 ≤ k))).length with hn
  have hnm : n ≤ m := by
    unfold position at h
    omega
  have hnlen : n < cs.length := lt_of_le_of_lt hnm hm
  have hfail := takeWhile_get_fail (fun c => decide (c.1 ≤ k)) cs hn.symm
    hnlen
  simp only [decide_eq_false_iff_not, not_le] at hfail
  rcases Nat.lt_or_ge n m with hlt | hge
  · exact lt_trans hfail (hpw ⟨n, hnlen⟩ ⟨m, hm⟩ hlt)
  · have : n = m := Nat.le_antisymm hnm hge
    subst this
    exact hfail

theorem position_eq_last [LinearOrder K] (cs : List (K × α)) (k : K)
    (hall : ∀ c ∈ cs, c.1 ≤ k) : position cs k = cs.length - 1 := by
  unfold position
  rw [takeWhile_length_eq]
  intro a ha
  simpa using hall a ha

theorem sorted_get_le [LinearOrder K] {cs : List (K × α)}
    (hsorted : List.Pairwise (fun a b => a.1 < b.1) cs) {i m : Nat}
    (hi : i < cs.length) (hm : m < cs.length) (h : i ≤ m) :
    (cs.get ⟨i, hi⟩).1 ≤ (cs.get ⟨m, hm⟩).1 := by
  rcases Nat.lt_or_ge i m with hlt | hge
  · exact le_of_lt (List.pairwise_iff_get.mp hsorted ⟨i, hi⟩ ⟨m, hm⟩ hlt)
  · have : i = m := Nat.le_antisymm h hge
    subst this
    exact le_refl _

/-! ### Pairs and key lists -/

theorem mem_pairsChildren_iff {cs : List (K × TNode K V)} {p : K × V} :
    p ∈ pairsChildren cs ↔ ∃ c ∈ cs, p ∈ TNode.pairs c.2 := by
  induction cs with
  | nil => simp [pairsChildren]
  | cons c rest ih =>
    simp only [pairsChildren, List.mem_append, ih, List.mem_cons]
    constructor
    · rintro (h | ⟨d, hd, hpd⟩)
      · exact ⟨c, Or.inl rfl, h⟩
      · exact ⟨d, Or.inr hd, hpd⟩
    · rintro ⟨d, hd | hd, hpd⟩
      · exact Or.inl (hd ▸ hpd)
      · exact Or.inr ⟨d, hd, hpd⟩

theorem keyList_child_subset {cs : List (K × TNode K V)} {c : K × TNode K V}
    (hc : c ∈ cs) {k : K} (hk : k ∈ TNode.keyList c.2) :
    k ∈ keyListChildren cs := by
  induction cs with
  | nil => simp at hc
  | cons d rest ih =>
    rcases List.mem_cons.mp hc with h | h
    · subst h
      simp only [keyListChildren, List.mem_cons, List.mem_append]
      exact Or.inr (Or.inl hk)
    · simp only [keyListChildren, List.mem_cons, List.mem_append]
      exact Or.inr (Or.inr (ih h))

theorem elemKey_mem_keyListChildren {cs : List (K × TNode K V)}
    {c : K × TNode K V} (hc : c ∈ cs) : c.1 ∈ keyListChildren cs := by
  induction cs with
  | nil => simp at hc
  | cons d rest ih =>
    rcases List.mem_cons.mp hc with h | h
    · subst h
      simp [keyListChildren]
    · simp only [keyListChildren, List.mem_cons, List.mem_append]
      exact Or.inr (Or.inr (ih h))

mutual

theorem pairs_key_mem_keyList {K V : Type} :
    ∀ (t : TNode K V), ∀ p ∈ TNode.pairs t, p.1 ∈ TNode.keyList t
  | TNode.leaf items => by
    intro p hp
    simp only [TNode.pairs] at hp
    simp only [TNode.keyList]
    exact List.mem_map_of_mem Prod.fst hp
  | TNode.int children => by
    intro p hp
    simp only [TNode.pairs] at hp
    simp only [TNode.keyList]
    exact pairsChildren_key_mem children p hp

theorem pairsChildren_key_mem {K V : Type} :
    ∀ (cs : List (K × TNode K V)), ∀ p ∈ pairsChildren cs,
      p.1 ∈ keyListChildren cs
  | [] => by
    intro p hp
    simp [pairsChildren] at hp
  | c :: rest => by
    intro p hp
    simp only [pairsChildren, List.mem_append] at hp
    simp only [keyListChildren, List.mem_cons, List.mem_append]
    rcases hp with h | h
    · exact Or.inr (Or.inl (pairs_key_mem_keyList c.2 p h))
    · exact Or.inr (Or.inr (pairsChildren_key_mem rest p h))

end

theorem head?_some_get {l : List α} {c : α} (h : l.head? = some c) :
    ∃ hl : 0 < l.length, l.get ⟨0, hl⟩ = c := by
  cases l with
  | nil => simp at h
  | cons x xs =>
    simp only [List.head?, Option.some.injEq] at h
    exact ⟨Nat.succ_pos _, h⟩

theorem getD_eq_get {l : List α} {i : Nat} (d : α) (h : i < l.length) :
    l.getD i d = l.get ⟨i, h⟩ := by
  induction l generalizing i with
  | nil => simp at h
  | cons x xs ih =>
    cases i with
    | zero => rfl
    | succ i => exact ih (by simpa using h)

/-- Children strictly left of the start-bound index computed by
`range_delete_get_bounds` hold only keys below the range's start. -/
theorem start_bound_kills [LinearOrder K] {cs : List (K × TNode K V)}
    {r : KRange K} {ub : Option K} {sb eb : RBound Nat}
    (hsorted : List.Pairwise (fun a b => a.1 < b.1) cs)
    (hub2 : ∀ i (h : i < cs.length) (h2 : i + 1 < cs.length),
        ∀ k ∈ TNode.keyList (cs.get ⟨i, h⟩).2, k < (cs.get ⟨i + 1, h2⟩).1)
    (hgb : range_delete_get_bounds cs r ub = some (sb, eb))
    {s : Nat} (hsb : sb = RBound.included s ∨ sb = RBound.excluded s)
    {m : Nat} (hm : m < cs.length) (hms : m < s) :
    ∀ k ∈ TNode.keyList (cs.get ⟨m, hm⟩).2,
      startContains r.1 k = false := by
  unfold range_delete_get_bounds at hgb
  cases hhead : cs.head? with
  | none => rw [hhead] at hgb; simp at hgb
  | some c0 =>
    rw [hhead] at hgb
    simp only [Option.some.injEq, Prod.mk.injEq] at hgb
    obtain ⟨hs, _⟩ := hgb
    obtain ⟨hl0, hc0⟩ := head?_some_get hhead
    have hnil : cs ≠ [] := by
      intro hcon
      rw [hcon] at hhead
      simp at hhead
    have main : ∀ t : K, (cs.get ⟨0, hl0⟩).1 ≤ t →
        m < position cs t →
        ∀ k ∈ TNode.keyList (cs.get ⟨m, hm⟩).2, k < t := by
      intro t h0 hms2 k hk
      have hposlt : position cs t < cs.length := position_lt_length cs t hnil
      have hkey := position_key_le cs t hl0 h0 hposlt
      have hm1lt : m + 1 < cs.length := lt_of_le_of_lt hms2 hposlt
      have hk1 := hub2 m hm hm1lt k hk
      have hle := sorted_get_le hsorted hm1lt hposlt hms2
      exact lt_of_lt_of_le hk1 (le_trans hle hkey)
    intro k hk
    cases hr1 : r.1 with
    | unbounded =>
      simp only [hr1] at hs
      rw [← hs] at hsb
      rcases hsb with h | h
      · cases h
        omega
      · cases h
    | included t =>
      simp only [hr1] at hs
      by_cases ht : t < c0.1
      · rw [if_pos ht] at hs
        rw [← hs] at hsb
        rcases hsb with h | h
        · cases h
          omega
        · cases h
      · rw [if_neg ht] at hs
        have hspos : s = position cs t := by
          by_cases hkeq : (cs.getD (position cs t) c0).1 = t
          · rw [if_pos hkeq] at hs
            rw [← hs] at hsb
            rcases hsb with h | h
            · cases h
              rfl
            · cases h
          · rw [if_neg hkeq] at hs
            rw [← hs] at hsb
            rcases hsb with h | h
            · cases h
            · cases h
              rfl
        have h0 : (cs.get ⟨0, hl0⟩).1 ≤ t := by
          rw [hc0]
          exact not_lt.mp ht
        have hklt := main t h0 (hspos ▸ hms) k hk
        simp only [startContains, hr1, decide_eq_false_iff_not, not_le]
        exact hklt
    | excluded t =>
      simp only [hr1] at hs
      by_cases ht : t < c0.1
      · rw [if_pos ht] at hs
        rw [← hs] at hsb
        rcases hsb with h | h
        · cases h
          omega
        · cases h
      · rw [if_neg ht] at hs
        have hspos : s = position cs t := by
          rw [← hs] at hsb
          rcases hsb with h | h
          · cases h
          · cases h
            rfl
        have h0 : (cs.get ⟨0, hl0⟩).1 ≤ t := by
          rw [hc0]
          exact not_lt.mp ht
        have hklt := main t h0 (hspos ▸ hms) k hk
        simp only [startContains, hr1, decide_eq_false_iff_not, not_lt]
        exact le_of_lt hklt

/-- Children right of the end-bound index computed by
`range_delete_get_bounds` hold only keys above the range's end: strictly
right of an `Included` index, at or right of an `Excluded` index. -/
theorem end_bound_kills [LinearOrder K] {cs : List (K × TNode K V)}
    {r : KRange K} {ub : Option K} {sb eb : RBound Nat}
    (hsorted : List.Pairwise (fun a b => a.1 < b.1) cs)
    (hlb : ∀ i (h : i < cs.length),
        ∀ k ∈ TNode.keyList (cs.get ⟨i, h⟩).2, (cs.get ⟨i, h⟩).1 ≤ k)
    (hsubElem : ∀ u, ub = some u → ∀ c ∈ cs, c.1 < u)
    (hgb : range_delete_get_bounds cs r ub = some (sb, eb)) :
    (∀ e, eb = RBound.included e → ∀ m (hm : m < cs.length), e < m →
      ∀ k ∈ TNode.keyList (cs.get ⟨m, hm⟩).2,
        endContains r.2 k = false) ∧
    (∀ e, eb = RBound.excluded e → ∀ m (hm : m < cs.length), e ≤ m →
      ∀ k ∈ TNode.keyList (cs.get ⟨m, hm⟩).2,
        endContains r.2 k = false) := by
  unfold range_delete_get_bounds at hgb
  cases hhead : cs.head? with
  | none => rw [hhead] at hgb; simp at hgb
  | some c0 =>
    rw [hhead] at hgb
    simp only [Option.some.injEq, Prod.mk.injEq] at hgb
    obtain ⟨_, he⟩ := hgb
    obtain ⟨hl0, hc0⟩ := head?_some_get hhead
    have hnil : cs ≠ [] := by
      intro hcon
      rw [hcon] at hhead
      simp at hhead
    have hposlt : ∀ t : K, position cs t < cs.length := fun t =>
      position_lt_length cs t hnil
    -- the two "range reaches past this node" facts
    have hubfull : ∀ (t : K) u, ub = some u → u ≤ t →
        position cs t = cs.length - 1 := by
      intro t u hub hut
      apply position_eq_last
      intro c hc
      exact le_of_lt (lt_of_lt_of_le (hsubElem u hub c hc) hut)
    -- keys of child m are above t when position cs t < m
    have hgt : ∀ (t : K) m (hm : m < cs.length), position cs t < m →
        ∀ k ∈ TNode.keyList (cs.get ⟨m, hm⟩).2, t < k := by
      intro t m hm hpm k hk
      exact lt_of_lt_of_le (position_gt cs t hsorted hm hpm)
        (hlb m hm k hk)
    -- keys of child m are at least t when t is the key at position cs t
    -- and position cs t ≤ m
    have hge : ∀ (t : K) m (hm : m < cs.length),
        (cs.get ⟨position cs t, hposlt t⟩).1 = t → position cs t ≤ m →
        ∀ k ∈ TNode.keyList (cs.get ⟨m, hm⟩).2, t ≤ k := by
      intro t m hm hkt hpm k hk
      have h1 := sorted_get_le hsorted (hposlt t) hm hpm
      rw [hkt] at h1
      exact le_trans h1 (hlb m hm k hk)
    constructor
    · intro e heb m hm hem k hk
      cases hr2 : r.2 with
      | unbounded =>
        simp only [hr2] at he
        rw [← he] at heb
        cases heb
      | included t =>
        simp only [hr2] at he
        rcases hub3 : (match ub with
            | some u => decide (u ≤ t)
            | Option.none => false) with _ | _
        · rw [hub3] at he
          simp only [Bool.false_eq_true, if_false] at he
          rw [← he] at heb
          cases heb
          simp only [endContains, hr2, decide_eq_false_iff_not, not_le]
          exact hgt t m hm hem k hk
        · rw [hub3] at he
          simp only [if_true] at he
          rw [← he] at heb
          cases heb
      | excluded t =>
        simp only [hr2] at he
        rcases hub3 : (match ub with
            | some u => decide (u ≤ t)
            | Option.none => false) with _ | _
        · rw [hub3] at he
          simp only [Bool.false_eq_true, if_false] at he
          by_cases hkeq : (cs.getD (position cs t) c0).1 = t
          · rw [if_pos hkeq] at he
            rw [← he] at heb
            cases heb
          · rw [if_neg hkeq] at he
            rw [← he] at heb
            cases heb
            simp only [endContains, hr2, decide_eq_false_iff_not, not_lt]
            exact le_of_lt (hgt t m hm hem k hk)
        · rw [hub3] at he
          simp only [if_true] at he
          rw [← he] at heb
          cases heb
    · intro e heb m hm hem k hk
      cases hr2 : r.2 with
      | unbounded =>
        simp only [hr2] at he
        rw [← he] at heb
        cases heb
        omega
      | included t =>
        simp only [hr2] at he
        rcases hub3 : (match ub with
            | some u => decide (u ≤ t)
            | Option.none => false) with _ | _
        · rw [hub3] at he
          simp only [Bool.false_eq_true, if_false] at he
          rw [← he] at heb
          cases heb
        · rw [hub3] at he
          simp only [if_true] at he
          rw [← he] at heb
          cases heb
          -- e = position + 1 = length, contradiction with e ≤ m < length
          obtain ⟨u, huu⟩ : ∃ u, ub = some u := by
            cases hu : ub with
            | none => rw [hu] at hub3; simp at hub3
            | some u => exact ⟨u, rfl⟩
          have hut : u ≤ t := by
            rw [huu] at hub3
            simpa using hub3
          have := hubfull t u huu hut
          omega
      | excluded t =>
        simp only [hr2] at he
        rcases hub3 : (match ub with
            | some u => decide (u ≤ t)
            | Option.none => false) with _ | _
        · rw [hub3] at he
          simp only [Bool.false_eq_true, if_false] at he
          by_cases hkeq : (cs.getD (position cs t) c0).1 = t
          · rw [if_pos hkeq] at he
            rw [← he] at heb
            cases heb
            rw [getD_eq_get c0 (hposlt t)] at hkeq
            simp only [endContains, hr2, decide_eq_false_iff_not, not_lt]
            exact hge t m hm hkeq hem k hk
          · rw [if_neg hkeq] at he
            rw [← he] at heb
            cases heb
        · rw [hub3] at he
          simp only [if_true] at he
          rw [← he] at heb
          cases heb
          obtain ⟨u, huu⟩ : ∃ u, ub = some u := by
            cases hu : ub with
            | none => rw [hu] at hub3; simp at hub3
            | some u => exact ⟨u, rfl⟩
          have hut : u ≤ t := by
            rw [huu] at hub3
            simpa using hub3
          have := hubfull t u huu hut
          omega

theorem get?_some_get {l : List α} {i : Nat} {c : α}
    (h : l.get? i = some c) : ∃ hi : i < l.length, l.get ⟨i, hi⟩ = c := by
  induction l generalizing i with
  | nil => simp at h
  | cons x xs ih =>
    cases i with
    | zero =>
      simp only [List.get?, Option.some.injEq] at h
      exact ⟨Nat.succ_pos _, h⟩
    | succ i =>
      obtain ⟨hi, hget⟩ := ih h
      exact ⟨Nat.succ_lt_succ hi, hget⟩

theorem kill_of_keyList_start [LinearOrder K] {r : KRange K}
    {t : TNode K V}
    (h : ∀ k ∈ TNode.keyList t, startContains r.1 k = false) :
    ∀ p ∈ TNode.pairs t, rangeContains r p.1 = false := by
  intro p hp
  have h2 := h p.1 (pairs_key_mem_keyList t p hp)
  simp [rangeContains, h2]

theorem kill_of_keyList_end [LinearOrder K] {r : KRange K} {t : TNode K V}
    (h : ∀ k ∈ TNode.keyList t, endContains r.2 k = false) :
    ∀ p ∈ TNode.pairs t, rangeContains r p.1 = false := by
  intro p hp
  have h2 := h p.1 (pairs_key_mem_keyList t p hp)
  simp [rangeContains, h2]

theorem int_no_pairs [LinearOrder K] {cs2 : List (K × TNode K V)}
    {r : KRange K}
    (hkill : ∀ m (hm : m < cs2.length),
      ∀ p ∈ TNode.pairs (cs2.get ⟨m, hm⟩).2, rangeContains r p.1 = false) :
    ∀ p ∈ TNode.pairs (TNode.int cs2), rangeContains r p.1 = false := by
  intro p hp
  simp only [TNode.pairs] at hp
  rw [mem_pairsChildren_iff] at hp
  obtain ⟨c, hc, hpc⟩ := hp
  obtain ⟨⟨m, hm⟩, hget⟩ := List.mem_iff_get.mp hc
  exact hkill m hm p (by rw [hget]; exact hpc)

theorem drain_step_no_pairs [LinearOrder K] {cs2 : List (K × TNode K V)}
    {r : KRange K} {low high : Nat} {t2 : TNode K V}
    (h : (if high > low then
            if high ≤ cs2.length then
              some (TNode.int (cs2.take low ++ cs2.drop high))
            else Option.none
          else some (TNode.int cs2)) = some t2)
    (hkill : ∀ m (hm : m < cs2.length), (m < low ∨ high ≤ m) →
      ∀ p ∈ TNode.pairs (cs2.get ⟨m, hm⟩).2, rangeContains r p.1 = false) :
    ∀ p ∈ TNode.pairs t2, rangeContains r p.1 = false := by
  by_cases h1 : high > low
  · rw [if_pos h1] at h
    by_cases h2 : high ≤ cs2.length
    · rw [if_pos h2] at h
      have ht2 := Option.some.inj h
      subst ht2
      intro p hp
      simp only [TNode.pairs] at hp
      rw [mem_pairsChildren_iff] at hp
      obtain ⟨c, hc, hpc⟩ := hp
      rcases List.mem_append.mp hc with hc2 | hc2
      · obtain ⟨m, hm, hmlow, hget⟩ := mem_take_get hc2
        exact hkill m hm (Or.inl hmlow) p (by rw [hget]; exact hpc)
      · obtain ⟨m, hm, hmhigh, hget⟩ := mem_drop_get hc2
        exact hkill m hm (Or.inr hmhigh) p (by rw [hget]; exact hpc)
    · rw [if_neg h2] at h
      simp at h
  · rw [if_neg h1] at h
    have ht2 := Option.some.inj h
    subst ht2
    apply int_no_pairs
    intro m hm
    rcases Nat.lt_or_ge m low with hlow | hlow
    · exact hkill m hm (Or.inl hlow)
    · exact hkill m hm (Or.inr (le_trans (not_lt.mp h1) hlow))

theorem passRecurse_eq {pass : TNode K V → Option K → Option (TNode K V)}
    {cs : List (K × TNode K V)} {i : Nat} {ub : Option K}
    {cs2 : List (K × TNode K V)}
    (h : passRecurse pass cs i ub = some cs2) :
    ∃ hi : i < cs.length, ∃ c2, pass (cs.get ⟨i, hi⟩).2 ub = some c2 ∧
      cs2 = cs.set i ((cs.get ⟨i, hi⟩).1, c2) := by
  unfold passRecurse at h
  cases hc : cs.get? i with
  | none => simp only [hc] at h; exact absurd h (by simp)
  | some c =>
    simp only [hc] at h
    cases hp : pass c.2 ub with
    | none => simp only [hp] at h; exact absurd h (by simp)
    | some c2 =>
      simp only [hp, Option.some.injEq] at h
      obtain ⟨hi, hget⟩ := get?_some_get hc
      refine ⟨hi, c2, ?_, ?_⟩
      · rw [hget]
        exact hp
      · rw [hget]
        exact h.symm

/-- The upper bound passed to the child at `i` when the next sibling's key
is taken unconditionally. -/
theorem subUB_child_next [LinearOrder K] {cs : List (K × TNode K V)}
    (hub2 : ∀ i2 (h : i2 < cs.length) (h2 : i2 + 1 < cs.length),
        ∀ k ∈ TNode.keyList (cs.get ⟨i2, h⟩).2, k < (cs.get ⟨i2 + 1, h2⟩).1)
    {i : Nat} (hi : i < cs.length) :
    SubUB (cs.get ⟨i, hi⟩).2 ((cs.get? (i + 1)).map Prod.fst) := by
  intro u hu k hk
  cases hnext : cs.get? (i + 1) with
  | none => rw [hnext] at hu; simp at hu
  | some d =>
    rw [hnext] at hu
    simp only [Option.map_some', Option.some.injEq] at hu
    obtain ⟨hi1, hget⟩ := get?_some_get hnext
    have := hub2 i hi hi1 k hk
    rw [hget] at this
    rw [← hu]
    exact this

/-- The upper bound passed to the child at `i` in the source's guarded form
`if i < l − 1 then children[i+1].key else ubound`. -/
theorem subUB_child [LinearOrder K] {cs : List (K × TNode K V)}
    {ub : Option K}
    (hub2 : ∀ i2 (h : i2 < cs.length) (h2 : i2 + 1 < cs.length),
        ∀ k ∈ TNode.keyList (cs.get ⟨i2, h⟩).2, k < (cs.get ⟨i2 + 1, h2⟩).1)
    (hsub : SubUB (TNode.int cs) ub) {i : Nat} (hi : i < cs.length) :
    SubUB (cs.get ⟨i, hi⟩).2
      (if i < cs.length - 1 then (cs.get? (i + 1)).map Prod.fst else ub) := by
  by_cases hil : i < cs.length - 1
  · rw [if_pos hil]
    exact subUB_child_next hub2 hi
  · rw [if_neg hil]
    intro u hu k hk
    apply hsub u hu
    simp only [TNode.keyList]
    exact keyList_child_subset (List.get_mem cs i hi) hk

/-- Pass 1 of `range_delete` removes every pair whose key lies in the
range: whatever pairs survive are outside `r`. -/
theorem pass1_no_pairs [LinearOrder K] (fuel : Nat) :
    ∀ (t : TNode K V) (r : KRange K) (ub : Option K) (t2 : TNode K V),
      WF t → SubUB t ub → range_delete_pass1 fuel t r ub = some t2 →
      ∀ p ∈ TNode.pairs t2, rangeContains r p.1 = false := by
  induction fuel with
  | zero =>
    intro t r ub t2 _ _ h
    simp [range_delete_pass1] at h
  | succ fuel ih =>
    intro t r ub t2 hwf hsub h
    cases t with
    | leaf items =>
      simp only [range_delete_pass1, Option.some.injEq] at h
      subst h
      intro p hp
      simp only [TNode.pairs, leafRangeDelete, List.mem_filter] at hp
      rcases hp with ⟨_, hp2⟩
      simpa using hp2
    | int cs =>
      cases hwf with
      | int _ hne hsorted hlb hub2 hrec =>
      have hsubElem : ∀ u, ub = some u → ∀ c ∈ cs, c.1 < u := by
        intro u hu c hc
        apply hsub u hu
        simp only [TNode.keyList]
        exact elemKey_mem_keyListChildren hc
      simp only [range_delete_pass1] at h
      cases hgb : range_delete_get_bounds cs r ub with
      | none =>
        simp only [hgb] at h
        exact absurd h (by simp)
      | some sbeb =>
        obtain ⟨sb, eb⟩ := sbeb
        simp only [hgb] at h
        have hends := end_bound_kills hsorted hlb hsubElem hgb
        have hsk : ∀ s : Nat,
            (sb = RBound.included s ∨ sb = RBound.excluded s) →
            ∀ m (hm : m < cs.length), m < s →
            ∀ p ∈ TNode.pairs (cs.get ⟨m, hm⟩).2,
              rangeContains r p.1 = false := by
          intro s hsb m hm hms
          exact kill_of_keyList_start
            (start_bound_kills hsorted hub2 hgb hsb hm hms)
        have hek_inc : ∀ e : Nat, eb = RBound.included e →
            ∀ m (hm : m < cs.length), e < m →
            ∀ p ∈ TNode.pairs (cs.get ⟨m, hm⟩).2,
              rangeContains r p.1 = false := by
          intro e heb m hm hem
          exact kill_of_keyList_end (hends.1 e heb m hm hem)
        have hek_exc : ∀ e : Nat, eb = RBound.excluded e →
            ∀ m (hm : m < cs.length), e ≤ m →
            ∀ p ∈ TNode.pairs (cs.get ⟨m, hm⟩).2,
              rangeContains r p.1 = false := by
          intro e heb m hm hem
          exact kill_of_keyList_end (hends.2 e heb m hm hem)
        cases sb with
        | unbounded => simp at h
        | included i0 =>
          cases eb with
          | unbounded => simp at h
          | excluded j =>
            apply drain_step_no_pairs h
            intro m hm hcond
            rcases hcond with hlow | hhigh
            · exact hsk i0 (Or.inl rfl) m hm hlow
            · exact hek_exc j rfl m hm hhigh
          | included j =>
            dsimp only at h
            cases hstep : passRecurse
                (fun t3 ub3 => range_delete_pass1 fuel t3 r ub3) cs j
                (if j < cs.length - 1 then (cs.get? (j + 1)).map Prod.fst
                 else ub) with
            | none =>
              simp only [hstep] at h
              exact absurd h (by simp)
            | some cs1 =>
              simp only [hstep] at h
              obtain ⟨hj, c2, hpass, hcs1⟩ := passRecurse_eq hstep
              subst hcs1
              apply drain_step_no_pairs h
              intro m hm hcond
              have hmlen : m < cs.length := by simpa using hm
              by_cases hmj : m = j
              · subst hmj
                have hget := get_set_eq (l := cs)
                  (i := m) (b := ((cs.get ⟨m, hj⟩).1, c2)) hm
                rw [hget]
                exact ih _ r _ c2 (hrec _ (List.get_mem cs m hj))
                  (subUB_child hub2 hsub hj) hpass
              · have hget := get_set_ne (l := cs)
                  (i := j) (j := m) (b := ((cs.get ⟨j, hj⟩).1, c2))
                  (fun hcon => hmj hcon.symm) hm hmlen
                rw [hget]
                rcases hcond with hlow | hhigh
                · exact hsk i0 (Or.inl rfl) m hmlen hlow
                · exact hek_inc j rfl m hmlen
                    (lt_of_le_of_ne hhigh (fun hcon => hmj hcon.symm))
        | excluded j =>
            cases eb with
            | unbounded => simp at h
            | excluded j2 =>
              dsimp only at h
              cases hstep : passRecurse
                  (fun t3 ub3 => range_delete_pass1 fuel t3 r ub3) cs j
                  (if j < cs.length - 1 then (cs.get? (j + 1)).map Prod.fst
                   else ub) with
              | none =>
                simp only [hstep] at h
                exact absurd h (by simp)
              | some cs1 =>
                simp only [hstep] at h
                obtain ⟨hi, c2, hpass, hcs1⟩ := passRecurse_eq hstep
                subst hcs1
                apply drain_step_no_pairs h
                intro m hm hcond
                have hmlen : m < cs.length := by simpa using hm
                by_cases hmi : m = j
                · subst hmi
                  have hget := get_set_eq (l := cs)
                    (i := m) (b := ((cs.get ⟨m, hi⟩).1, c2)) hm
                  rw [hget]
                  exact ih _ r _ c2 (hrec _ (List.get_mem cs m hi))
                    (subUB_child hub2 hsub hi) hpass
                · have hget := get_set_ne (l := cs)
                    (i := j) (j := m) (b := ((cs.get ⟨j, hi⟩).1, c2))
                    (fun hcon => hmi hcon.symm) hm hmlen
                  rw [hget]
                  rcases hcond with hlow | hhigh
                  · exact hsk j (Or.inr rfl) m hmlen (by omega)
                  · exact hek_exc j2 rfl m hmlen hhigh
            | included j2 =>
              dsimp only at h
              by_cases hji : j2 > j
              · rw [if_pos hji] at h
                cases hstep1 : passRecurse
                    (fun t3 ub3 => range_delete_pass1 fuel t3 r ub3) cs j
                    ((cs.get? (j + 1)).map Prod.fst) with
                | none =>
                  simp only [hstep1] at h
                  exact absurd h (by simp)
                | some cs1 =>
                  simp only [hstep1] at h
                  obtain ⟨hi, c2i, hpass1, hcs1⟩ := passRecurse_eq hstep1
                  subst hcs1
                  cases hstep2 : passRecurse
                      (fun t3 ub3 => range_delete_pass1 fuel t3 r ub3)
                      (cs.set j ((cs.get ⟨j, hi⟩).1, c2i)) j2
                      (if j2 < cs.length - 1 then
                        (cs.get? (j2 + 1)).map Prod.fst
                       else ub) with
                  | none =>
                    simp only [hstep2] at h
                    exact absurd h (by simp)
                  | some cs2full =>
                    simp only [hstep2] at h
                    obtain ⟨hj1, d2, hpass2, hcs2⟩ := passRecurse_eq hstep2
                    subst hcs2
                    have hjlen : j2 < cs.length := by simpa using hj1
                    have hgetj := get_set_ne (l := cs) (i := j) (j := j2)
                      (b := ((cs.get ⟨j, hi⟩).1, c2i))
                      (Nat.ne_of_lt hji) hj1 hjlen
                    rw [hgetj] at hpass2
                    apply drain_step_no_pairs h
                    intro m hm hcond
                    have hmlen : m < cs.length := by simpa using hm
                    have hm1 : m < (cs.set j ((cs.get ⟨j, hi⟩).1,
                        c2i)).length := by simpa using hmlen
                    by_cases hmj2 : m = j2
                    · subst hmj2
                      have hget := get_set_eq
                        (l := cs.set j ((cs.get ⟨j, hi⟩).1, c2i))
                        (i := m)
                        (b := (((cs.set j ((cs.get ⟨j, hi⟩).1, c2i)).get
                          ⟨m, hj1⟩).1, d2)) hm
                      rw [hget]
                      exact ih _ r _ d2 (hrec _ (List.get_mem cs m hjlen))
                        (subUB_child hub2 hsub hjlen) hpass2
                    · have hget := get_set_ne
                        (l := cs.set j ((cs.get ⟨j, hi⟩).1, c2i))
                        (i := j2) (j := m)
                        (b := (((cs.set j ((cs.get ⟨j, hi⟩).1, c2i)).get
                          ⟨j2, hj1⟩).1, d2))
                        (fun hcon => hmj2 hcon.symm) hm hm1
                      rw [hget]
                      by_cases hmj : m = j
                      · subst hmj
                        have hget2 := get_set_eq (l := cs)
                          (i := m) (b := ((cs.get ⟨m, hi⟩).1, c2i)) hm1
                        rw [hget2]
                        exact ih _ r _ c2i
                          (hrec _ (List.get_mem cs m hi))
                          (subUB_child_next hub2 hi) hpass1
                      · have hget2 := get_set_ne (l := cs)
                          (i := j) (j := m)
                          (b := ((cs.get ⟨j, hi⟩).1, c2i))
                          (fun hcon => hmj hcon.symm) hm1 hmlen
                        rw [hget2]
                        rcases hcond with hlow | hhigh
                        · exact hsk j (Or.inr rfl) m hmlen (by omega)
                        · exact hek_inc j2 rfl m hmlen
                            (lt_of_le_of_ne hhigh
                              (fun hcon => hmj2 hcon.symm))
              · rw [if_neg hji] at h
                cases hstep : passRecurse
                    (fun t3 ub3 => range_delete_pass1 fuel t3 r ub3) cs j
                    (if j < cs.length - 1 then
                      (cs.get? (j + 1)).map Prod.fst
                     else ub) with
                | none =>
                  simp only [hstep] at h
                  exact absurd h (by simp)
                | some cs1 =>
                  simp only [hstep] at h
                  obtain ⟨hi, c2, hpass, hcs1⟩ := passRecurse_eq hstep
                  subst hcs1
                  apply drain_step_no_pairs h
                  intro m hm _
                  have hmlen : m < cs.length := by simpa using hm
                  by_cases hmi : m = j
                  · subst hmi
                    have hget := get_set_eq (l := cs)
                      (i := m) (b := ((cs.get ⟨m, hi⟩).1, c2)) hm
                    rw [hget]
                    exact ih _ r _ c2 (hrec _ (List.get_mem cs m hi))
                      (subUB_child hub2 hsub hi) hpass
                  · have hget := get_set_ne (l := cs)
                      (i := j) (j := m) (b := ((cs.get ⟨j, hi⟩).1, c2))
                      (fun hcon => hmi hcon.symm) hm hmlen
                    rw [hget]
                    rcases Nat.lt_or_ge m j with hlt | hge
                    · exact hsk j (Or.inr rfl) m hmlen hlt
                    · have hgt : j < m :=
                        lt_of_le_of_ne hge (fun hcon => hmi hcon.symm)
                      exact hek_inc j2 rfl m hmlen
                        (lt_of_le_of_lt (not_lt.mp hji) hgt)

theorem pairsChildren_append {a b : List (K × TNode K V)} :
    pairsChildren (a ++ b) = pairsChildren a ++ pairsChildren b := by
  induction a with
  | nil => simp [pairsChildren]
  | cons c rest ih => simp [pairsChildren, ih]

theorem pairsChildren_take_subset {l : List (K × TNode K V)} {n : Nat}
    {p : K × V} (h : p ∈ pairsChildren (l.take n)) : p ∈ pairsChildren l := by
  rw [mem_pairsChildren_iff] at h ⊢
  obtain ⟨c, hc, hpc⟩ := h
  exact ⟨c, List.take_subset n l hc, hpc⟩

theorem pairsChildren_drop_subset {l : List (K × TNode K V)} {n : Nat}
    {p : K × V} (h : p ∈ pairsChildren (l.drop n)) : p ∈ pairsChildren l := by
  rw [mem_pairsChildren_iff] at h ⊢
  obtain ⟨c, hc, hpc⟩ := h
  exact ⟨c, List.drop_subset n l hc, hpc⟩

theorem nodeMerge_pairs {a b m : TNode K V} (h : nodeMerge a b = some m) :
    TNode.pairs m = TNode.pairs a ++ TNode.pairs b := by
  cases a with
  | leaf xa =>
    cases b with
    | leaf xb =>
      simp only [nodeMerge, Option.some.injEq] at h
      subst h
      simp [TNode.pairs]
    | int xb => simp [nodeMerge] at h
  | int xa =>
    cases b with
    | leaf xb => simp [nodeMerge] at h
    | int xb =>
      simp only [nodeMerge, Option.some.injEq] at h
      subst h
      simp [TNode.pairs, pairsChildren_append]

theorem take_low_keys_pairs {c s d e : TNode K V}
    (h : take_low_keys c s = some (d, e)) {p : K × V}
    (hp : p ∈ TNode.pairs d ∨ p ∈ TNode.pairs e) :
    p ∈ TNode.pairs c ∨ p ∈ TNode.pairs s := by
  cases c with
  | leaf a =>
    cases s with
    | int b => simp [take_low_keys] at h
    | leaf b =>
      simp only [take_low_keys, Option.some.injEq, Prod.mk.injEq] at h
      obtain ⟨hc2, hs2⟩ := h
      rw [← hc2, ← hs2] at hp
      simp only [TNode.pairs, List.mem_append] at hp ⊢
      rcases hp with (hp | hp) | hp
      · exact Or.inl hp
      · exact Or.inr (List.take_subset _ _ hp)
      · exact Or.inr (List.drop_subset _ _ hp)
  | int a =>
    cases s with
    | leaf b => simp [take_low_keys] at h
    | int b =>
      simp only [take_low_keys, Option.some.injEq, Prod.mk.injEq] at h
      obtain ⟨hc2, hs2⟩ := h
      rw [← hc2, ← hs2] at hp
      simp only [TNode.pairs, pairsChildren_append, List.mem_append] at hp ⊢
      rcases hp with (hp | hp) | hp
      · exact Or.inl hp
      · exact Or.inr (pairsChildren_take_subset hp)
      · exact Or.inr (pairsChildren_drop_subset hp)

theorem take_high_keys_pairs {c s d e : TNode K V}
    (h : take_high_keys c s = some (d, e)) {p : K × V}
    (hp : p ∈ TNode.pairs d ∨ p ∈ TNode.pairs e) :
    p ∈ TNode.pairs c ∨ p ∈ TNode.pairs s := by
  cases c with
  | leaf a =>
    cases s with
    | int b => simp [take_high_keys] at h
    | leaf b =>
      simp only [take_high_keys, Option.some.injEq, Prod.mk.injEq] at h
      obtain ⟨hc2, hs2⟩ := h
      rw [← hc2, ← hs2] at hp
      simp only [TNode.pairs, List.mem_append] at hp ⊢
      rcases hp with (hp | hp) | hp
      · exact Or.inr (List.drop_subset _ _ hp)
      · exact Or.inl hp
      · exact Or.inr (List.take_subset _ _ hp)
  | int a =>
    cases s with
    | leaf b => simp [take_high_keys] at h
    | int b =>
      simp only [take_high_keys, Option.some.injEq, Prod.mk.injEq] at h
      obtain ⟨hc2, hs2⟩ := h
      rw [← hc2, ← hs2] at hp
      simp only [TNode.pairs, pairsChildren_append, List.mem_append] at hp ⊢
      rcases hp with (hp | hp) | hp
      · exact Or.inr (pairsChildren_drop_subset hp)
      · exact Or.inl hp
      · exact Or.inr (pairsChildren_take_subset hp)

/-- `fix_int` never invents pairs: the fixed children hold a subset of the
original pairs. -/
theorem fix_int_subset {maxf : Nat} {cs cs2 : List (K × TNode K V)}
    {ci mb ma : Nat} (h : fix_int maxf cs ci = some (cs2, mb, ma)) :
    ∀ p ∈ pairsChildren cs2, p ∈ pairsChildren cs := by
  unfold fix_int at h
  cases hc : cs.get? ci with
  | none => simp only [hc] at h; exact absurd h (by simp)
  | some child =>
    simp only [hc] at h
    obtain ⟨hci, hcget⟩ := get?_some_get hc
    have hchildmem : child ∈ cs := by rw [← hcget]; exact List.get_mem _ _ _
    by_cases hlt : ci < cs.length - 1
    · rw [if_pos hlt] at h
      cases hsib : cs.get? (ci + 1) with
      | none => simp only [hsib] at h; exact absurd h (by simp)
      | some sibling =>
        simp only [hsib] at h
        obtain ⟨hsi, hsget⟩ := get?_some_get hsib
        have hsibmem : sibling ∈ cs := by
          rw [← hsget]; exact List.get_mem _ _ _
        by_cases hcm : can_merge child.2 sibling.2 maxf = true
        · rw [if_pos hcm] at h
          cases hmg : nodeMerge child.2 sibling.2 with
          | none => simp only [hmg] at h; exact absurd h (by simp)
          | some merged =>
            simp only [hmg, Option.some.injEq, Prod.mk.injEq] at h
            obtain ⟨hcs2, _⟩ := h
            subst hcs2
            intro p hp
            rw [mem_pairsChildren_iff] at hp ⊢
            obtain ⟨c, hcmem, hpc⟩ := hp
            rcases mem_set_cases (mem_eraseIdx hcmem) with hnew | hold
            · subst hnew
              have hmp := nodeMerge_pairs hmg
              rw [hmp] at hpc
              rcases List.mem_append.mp hpc with h1 | h1
              · exact ⟨child, hchildmem, h1⟩
              · exact ⟨sibling, hsibmem, h1⟩
            · exact ⟨c, hold, hpc⟩
        · rw [if_neg hcm] at h
          cases htk : take_low_keys child.2 sibling.2 with
          | none => simp only [htk] at h; exact absurd h (by simp)
          | some pr =>
            simp only [htk] at h
            cases hnk : nodeKey pr.2 with
            | none => simp only [hnk] at h; exact absurd h (by simp)
            | some sibKey =>
              simp only [hnk, Option.some.injEq, Prod.mk.injEq] at h
              obtain ⟨hcs2, _⟩ := h
              subst hcs2
              intro p hp
              rw [mem_pairsChildren_iff] at hp ⊢
              obtain ⟨c, hcmem, hpc⟩ := hp
              rcases mem_set_cases hcmem with hnew | hold
              · subst hnew
                rcases take_low_keys_pairs (d := pr.1) (e := pr.2)
                    (by rw [htk]) (Or.inr hpc) with h1 | h1
                · exact ⟨child, hchildmem, h1⟩
                · exact ⟨sibling, hsibmem, h1⟩
              · rcases mem_set_cases hold with hnew2 | hold2
                · subst hnew2
                  rcases take_low_keys_pairs (d := pr.1) (e := pr.2)
                      (by rw [htk]) (Or.inl hpc) with h1 | h1
                  · exact ⟨child, hchildmem, h1⟩
                  · exact ⟨sibling, hsibmem, h1⟩
                · exact ⟨c, hold2, hpc⟩
    · rw [if_neg hlt] at h
      by_cases hz : ci = 0
      · rw [if_pos hz] at h
        exact absurd h (by simp)
      · rw [if_neg hz] at h
        cases hsib : cs.get? (ci - 1) with
        | none => simp only [hsib] at h; exact absurd h (by simp)
        | some sibling =>
          simp only [hsib] at h
          obtain ⟨hsi, hsget⟩ := get?_some_get hsib
          have hsibmem : sibling ∈ cs := by
            rw [← hsget]; exact List.get_mem _ _ _
          by_cases hcm : can_merge sibling.2 child.2 maxf = true
          · rw [if_pos hcm] at h
            cases hmg : nodeMerge sibling.2 child.2 with
            | none => simp only [hmg] at h; exact absurd h (by simp)
            | some merged =>
              simp only [hmg, Option.some.injEq, Prod.mk.injEq] at h
              obtain ⟨hcs2, _⟩ := h
              subst hcs2
              intro p hp
              rw [mem_pairsChildren_iff] at hp ⊢
              obtain ⟨c, hcmem, hpc⟩ := hp
              rcases mem_set_cases (mem_eraseIdx hcmem) with hnew | hold
              · subst hnew
                have hmp := nodeMerge_pairs hmg
                rw [hmp] at hpc
                rcases List.mem_append.mp hpc with h1 | h1
                · exact ⟨sibling, hsibmem, h1⟩
                · exact ⟨child, hchildmem, h1⟩
              · exact ⟨c, hold, hpc⟩
          · rw [if_neg hcm] at h
            cases htk : take_high_keys child.2 sibling.2 with
            | none => simp only [htk] at h; exact absurd h (by simp)
            | some pr =>
              simp only [htk] at h
              cases hnk : nodeKey pr.1 with
              | none => simp only [hnk] at h; exact absurd h (by simp)
              | some childKey =>
                simp only [hnk, Option.some.injEq, Prod.mk.injEq] at h
                obtain ⟨hcs2, _⟩ := h
                subst hcs2
                intro p hp
                rw [mem_pairsChildren_iff] at hp ⊢
                obtain ⟨c, hcmem, hpc⟩ := hp
                rcases mem_set_cases hcmem with hnew | hold
                · subst hnew
                  rcases take_high_keys_pairs (d := pr.1) (e := pr.2)
                      (by rw [htk]) (Or.inl hpc) with h1 | h1
                  · exact ⟨child, hchildmem, h1⟩
                  · exact ⟨sibling, hsibmem, h1⟩
                · rcases mem_set_cases hold with hnew2 | hold2
                  · subst hnew2
                    rcases take_high_keys_pairs (d := pr.1) (e := pr.2)
                        (by rw [htk]) (Or.inr hpc) with h1 | h1
                    · exact ⟨child, hchildmem, h1⟩
                    · exact ⟨sibling, hsibmem, h1⟩
                  · exact ⟨c, hold2, hpc⟩

/-- `fix_if_in_danger` never invents pairs. -/
theorem fix_if_in_danger_subset [LinearOrder K] {minf maxf : Nat}
    {cs cs2 : List (K × TNode K V)} {ci mb ma : Nat} {r : KRange K}
    {ub : Option K}
    (h : fix_if_in_danger minf maxf cs ci r ub = some (cs2, mb, ma)) :
    ∀ p ∈ pairsChildren cs2, p ∈ pairsChildren cs := by
  unfold fix_if_in_danger at h
  cases hc : cs.get? ci with
  | none => simp only [hc] at h; exact absurd h (by simp)
  | some child =>
    simp only [hc] at h
    by_cases hu : underflow child.2 (minf - 1) = true
    · rw [if_pos hu] at h
      exact fix_int_subset h
    · rw [if_neg hu] at h
      cases hch : child.2 with
      | leaf items =>
        simp only [hch, Option.some.injEq, Prod.mk.injEq] at h
        obtain ⟨hcs2, _⟩ := h
        subst hcs2
        exact fun p hp => hp
      | int gcs =>
        simp only [hch] at h
        cases hgb : range_delete_get_bounds gcs r ub with
        | none => simp only [hgb] at h; exact absurd h (by simp)
        | some sbeb =>
          obtain ⟨sb, eb⟩ := sbeb
          simp only [hgb] at h
          cases hcut : (match sb, eb with
              | RBound.included _, RBound.excluded _ => some 0
              | RBound.included _, RBound.included _ => some 1
              | RBound.excluded _, RBound.excluded _ => some 1
              | RBound.excluded i, RBound.included j =>
                if j > i then some 2 else some 1
              | _, _ => (Option.none : Option Nat)) with
          | none =>
            simp only [hcut] at h
            exact absurd h (by simp)
          | some cut =>
            simp only [hcut] at h
            by_cases h1 : cut > gcs.length
            · rw [if_pos h1] at h
              exact absurd h (by simp)
            · rw [if_neg h1] at h
              by_cases h2 : gcs.length - cut ≤ minf - 1
              · rw [if_pos h2] at h
                exact fix_int_subset h
              · rw [if_neg h2] at h
                simp only [Option.some.injEq, Prod.mk.injEq] at h
                obtain ⟨hcs2, _⟩ := h
                subst hcs2
                exact fun p hp => hp

/-- The `fixit` closure of pass 2 never invents pairs, provided the
recursive pass it wraps never does. -/
theorem pass2Fixit_subset [LinearOrder K]
    {pass : TNode K V → KRange K → Option K → Option (TNode K V)}
    (hpass : ∀ (t3 : TNode K V) (r2 : KRange K) (ub2 : Option K)
      (t4 : TNode K V), pass t3 r2 ub2 = some t4 →
      ∀ p ∈ TNode.pairs t4, p ∈ TNode.pairs t3)
    {minf maxf : Nat} {cs cs3 : List (K × TNode K V)} {idx : Nat}
    {r : KRange K} {ub : Option K} {mm : Nat}
    (h : pass2Fixit pass minf maxf cs idx r ub = some (cs3, mm)) :
    ∀ p ∈ pairsChildren cs3, p ∈ pairsChildren cs := by
  simp only [pass2Fixit] at h
  cases hfix : fix_if_in_danger minf maxf cs idx r
      (if idx < cs.length - 1 then (cs.get? (idx + 1)).map Prod.fst
       else ub) with
  | none => simp only [hfix] at h; exact absurd h (by simp)
  | some res =>
    obtain ⟨cs2, mb, ma⟩ := res
    simp only [hfix] at h
    have hsub2 := fix_if_in_danger_subset hfix
    by_cases hmb : mb ≤ idx
    · rw [if_pos hmb] at h
      cases hget : cs2.get? (idx - mb) with
      | none => simp only [hget] at h; exact absurd h (by simp)
      | some child2 =>
        simp only [hget] at h
        cases hpassres : pass child2.2 r
            (if idx < cs.length - 1 then (cs.get? (idx + 1)).map Prod.fst
             else ub) with
        | none => simp only [hpassres] at h; exact absurd h (by simp)
        | some c2 =>
          simp only [hpassres, Option.some.injEq, Prod.mk.injEq] at h
          obtain ⟨hcs3, _⟩ := h
          subst hcs3
          intro p hp
          rw [mem_pairsChildren_iff] at hp
          obtain ⟨c, hcmem, hpc⟩ := hp
          rcases mem_set_cases hcmem with hnew | hold
          · subst hnew
            have hp2 := hpass _ _ _ _ hpassres p hpc
            obtain ⟨hidx2, hget2⟩ := get?_some_get hget
            apply hsub2
            rw [mem_pairsChildren_iff]
            refine ⟨child2, ?_, hp2⟩
            rw [← hget2]
            exact List.get_mem _ _ _
          · apply hsub2
            rw [mem_pairsChildren_iff]
            exact ⟨c, hold, hpc⟩
    · rw [if_neg hmb] at h
      exact absurd h (by simp)

/-- Pass 2 of `range_delete` never invents pairs: it only reshapes. -/
theorem pass2_pairs_subset [LinearOrder K] (fuel : Nat) :
    ∀ (minf maxf : Nat) (t : TNode K V) (r : KRange K) (ub : Option K)
      (t2 : TNode K V),
      range_delete_pass2 fuel minf maxf t r ub = some t2 →
      ∀ p ∈ TNode.pairs t2, p ∈ TNode.pairs t := by
  induction fuel with
  | zero =>
    intro minf maxf t r ub t2 h
    simp [range_delete_pass2] at h
  | succ fuel ih =>
    intro minf maxf t r ub t2 h
    cases t with
    | leaf items =>
      simp only [range_delete_pass2, Option.some.injEq] at h
      subst h
      exact fun p hp => hp
    | int cs =>
      simp only [range_delete_pass2] at h
      cases hgb : range_delete_get_bounds cs r ub with
      | none =>
        simp only [hgb] at h
        exact absurd h (by simp)
      | some sbeb =>
        obtain ⟨sb, eb⟩ := sbeb
        simp only [hgb] at h
        have hpass : ∀ (t3 : TNode K V) (r2 : KRange K) (ub2 : Option K)
            (t4 : TNode K V),
            range_delete_pass2 fuel minf maxf t3 r2 ub2 = some t4 →
            ∀ p ∈ TNode.pairs t4, p ∈ TNode.pairs t3 :=
          fun t3 r2 ub2 t4 hh => ih minf maxf t3 r2 ub2 t4 hh
        cases hctf : (match sb, eb with
            | RBound.included _, RBound.excluded _ =>
              some ((Option.none : Option Nat), (Option.none : Option Nat))
            | RBound.included _, RBound.included j =>
              some (Option.none, some j)
            | RBound.excluded i, RBound.excluded _ =>
              some (some i, Option.none)
            | RBound.excluded i, RBound.included j =>
              if j > i then some (some i, some j)
              else some (some i, Option.none)
            | _, _ =>
              (Option.none : Option (Option Nat × Option Nat))) with
        | none =>
          simp only [hctf] at h
          exact absurd h (by simp)
        | some f12 =>
          obtain ⟨f1, f2⟩ := f12
          simp only [hctf] at h
          cases hst1 : (match f1 with
              | Option.none => some (cs, 0)
              | some idx =>
                pass2Fixit
                  (fun t3 r2 ub2 =>
                    range_delete_pass2 fuel minf maxf t3 r2 ub2)
                  minf maxf cs idx r ub) with
          | none =>
            simp only [hst1] at h
            exact absurd h (by simp)
          | some st =>
            obtain ⟨cs1, merged⟩ := st
            simp only [hst1] at h
            have hsub1 : ∀ p ∈ pairsChildren cs1, p ∈ pairsChildren cs := by
              cases f1 with
              | none =>
                dsimp only at hst1
                simp only [Option.some.injEq, Prod.mk.injEq] at hst1
                obtain ⟨h1, _⟩ := hst1
                subst h1
                exact fun p hp => hp
              | some idx =>
                dsimp only at hst1
                exact pass2Fixit_subset hpass hst1
            cases f2 with
            | none =>
              dsimp only at h
              have ht := Option.some.inj h
              subst ht
              intro p hp
              simp only [TNode.pairs] at hp ⊢
              exact hsub1 p hp
            | some idx =>
              dsimp only at h
              by_cases hm : merged ≤ idx
              · rw [if_pos hm] at h
                cases hfix2 : pass2Fixit
                    (fun t3 r2 ub2 =>
                      range_delete_pass2 fuel minf maxf t3 r2 ub2)
                    minf maxf cs1 (idx - merged) r ub with
                | none =>
                  simp only [hfix2] at h
                  exact absurd h (by simp)
                | some st2 =>
                  obtain ⟨cs2, mm2⟩ := st2
                  simp only [hfix2] at h
                  have ht := Option.some.inj h
                  subst ht
                  have hsub2 := pass2Fixit_subset hpass hfix2
                  intro p hp
                  simp only [TNode.pairs] at hp ⊢
                  exact hsub1 p (hsub2 p hp)
              · rw [if_neg hm] at h
                exact absurd h (by simp)

/-- `merge_root` never invents pairs. -/
theorem merge_root_subset {t : TNode K V} :
    ∀ p ∈ TNode.pairs (merge_root t), p ∈ TNode.pairs t := by
  cases t with
  | leaf items => exact fun p hp => hp
  | int cs =>
    cases cs with
    | nil => exact fun p hp => hp
    | cons c rest =>
      cases rest with
      | nil =>
        intro p hp
        simp only [merge_root] at hp
        simp only [TNode.pairs, pairsChildren]
        exact List.mem_append.mpr (Or.inl hp)
      | cons d rest2 => exact fun p hp => hp

/-- Claim C8: for every well-formed tree and every key range `R`, after
`range_delete(R)` completes, a subsequent `range(R)` query yields the empty
sequence of key-value pairs. -/
theorem tree_range_delete_range_empty [LinearOrder K]
    (fuel minf maxf : Nat) (t : TNode K V) (r : KRange K) (t2 : TNode K V)
    (hwf : WF t) (h : range_delete fuel minf maxf t r = some t2) :
    rangeQuery r t2 = [] := by
  unfold range_delete at h
  cases h1 : range_delete_pass1 fuel t r Option.none with
  | none =>
    simp only [h1] at h
    exact absurd h (by simp)
  | some t1 =>
    simp only [h1] at h
    cases h2 : range_delete_pass2 fuel minf maxf t1 r Option.none with
    | none =>
      simp only [h2] at h
      exact absurd h (by simp)
    | some t3 =>
      simp only [h2, Option.some.injEq] at h
      subst h
      have hp1 := pass1_no_pairs fuel t r Option.none t1 hwf
        (fun u hu => Option.noConfusion hu) h1
      have hp2 := pass2_pairs_subset fuel minf maxf t1 r Option.none t3 h2
      unfold rangeQuery
      rw [List.filter_eq_nil_iff]
      intro p hp
      have hfalse := hp1 p (hp2 p (merge_root_subset p hp))
      simp [hfalse]

/-- Witness for C8: a concrete well-formed two-leaf tree; deleting the
range `[2, 6)` completes (with fuel 5, fanout bounds 2 and 4) and the
subsequent range query over `[2, 6)` on the result is empty. -/
theorem tree_range_delete_range_empty_witness :
    WF (TNode.int [(0, TNode.leaf [(0, 10), (2, 12)]),
      (5, TNode.leaf [(5, 15), (7, 17)])] : TNode Nat Nat) ∧
    rangeQuery ((RBound.included 2, RBound.excluded 6) : KRange Nat)
      (TNode.int [(0, TNode.leaf [(0, 10)]),
        (5, TNode.leaf [(7, 17)])]) = [] := by
  have hrec : ∀ c ∈ ([(0, TNode.leaf [(0, 10), (2, 12)]),
      (5, TNode.leaf [(5, 15), (7, 17)])] :
        List (Nat × TNode Nat Nat)), WF c.2 := by
    intro c hc
    simp only [List.mem_cons, List.not_mem_nil, or_false] at hc
    rcases hc with rfl | rfl
    · exact WF.leaf _
    · exact WF.leaf _
  have hwf : WF (TNode.int [(0, TNode.leaf [(0, 10), (2, 12)]),
      (5, TNode.leaf [(5, 15), (7, 17)])] : TNode Nat Nat) :=
    WF.int _ (by simp) (by decide) (by decide) (by decide) hrec
  refine ⟨hwf, ?_⟩
  exact tree_range_delete_range_empty 5 2 4 _
    ((RBound.included 2, RBound.excluded 6) : KRange Nat) _ hwf rfl

/-- Claim C4: `Compression::compress` returns the input unchanged tagged
`Compression::None` whenever the buffer length is at most one LBA (4096
bytes) or the compressed form does not occupy at least one whole LBA fewer
than the input; it returns the compressed bytes tagged with the requested
variant only when `ceil(clen/LBA) < ceil(ilen/LBA)`. -/
theorem compress_lba_savings (codec : Compression → Bytes → Bytes)
    (c : Compression) (input : Bytes) :
    ((c = Compression.none ∨ input.length ≤ BYTES_PER_LBA) →
      Compression.compress codec c input = (input, Compression.none)) ∧
    (∀ out v, Compression.compress codec c input = (out, v) →
      v ≠ Compression.none →
      out = codec c input ∧ v = c ∧
        divCeil out.length BYTES_PER_LBA <
          divCeil input.length BYTES_PER_LBA) ∧
    (c ≠ Compression.none → BYTES_PER_LBA < input.length →
      ¬ divCeil (codec c input).length BYTES_PER_LBA <
          divCeil input.length BYTES_PER_LBA →
      Compression.compress codec c input = (input, Compression.none)) := by
  refine ⟨?_, ?_, ?_⟩
  · intro h
    simp only [Compression.compress, if_pos h]
  · intro out v hev hv
    by_cases h : c = Compression.none ∨ input.length ≤ BYTES_PER_LBA
    · simp only [Compression.compress, if_pos h] at hev
      cases hev
      exact absurd rfl hv
    · simp only [Compression.compress, if_neg h] at hev
      by_cases h2 : divCeil (codec c input).length BYTES_PER_LBA <
          divCeil input.length BYTES_PER_LBA
      · simp only [if_pos h2] at hev
        cases hev
        exact ⟨rfl, rfl, h2⟩
      · simp only [if_neg h2] at hev
        cases hev
        exact absurd rfl hv
  · intro h1 h2 h3
    have h : ¬ (c = Compression.none ∨ input.length ≤ BYTES_PER_LBA) := by
      push_neg
      exact ⟨h1, by omega⟩
    simp only [Compression.compress, if_neg h, if_neg h3]

/-- Witness for C4 at concrete inputs: a 3-byte buffer is returned
unchanged with `Compression::None`, and a 4097-byte buffer under the
identity codec (no LBA saved) is also stored uncompressed. -/
theorem compress_lba_savings_witness :
    Compression.compress (fun _ b => b.take 1) (Compression.zstd Option.none)
        [1, 2, 3] = ([1, 2, 3], Compression.none) ∧
    Compression.compress (fun _ b => b) (Compression.zstd Option.none)
        (List.replicate 4097 0) = (List.replicate 4097 0, Compression.none) :=
  ⟨(compress_lba_savings _ _ _).1 (Or.inr (by norm_num [BYTES_PER_LBA])),
   (compress_lba_savings _ _ _).2.2 (by decide)
     (by norm_num [BYTES_PER_LBA, List.length_replicate])
     (by norm_num [divCeil, BYTES_PER_LBA, List.length_replicate])⟩

/-- The buffer kept by `Compression::compress` is never longer than the
input: either it is the input itself, or a codec output occupying strictly
fewer LBAs. -/
theorem compress_fst_length_le (codec : Compression → Bytes → Bytes)
    (c : Compression) (input : Bytes) :
    (Compression.compress codec c input).1.length ≤ input.length := by
  by_cases h : c = Compression.none ∨ input.length ≤ BYTES_PER_LBA
  · simp [Compression.compress, if_pos h]
  · simp only [Compression.compress, if_neg h]
    by_cases h2 : divCeil (codec c input).length BYTES_PER_LBA <
        divCeil input.length BYTES_PER_LBA
    · simp only [if_pos h2]
      by_contra hgt
      push_neg at hgt
      have hmono : divCeil input.length BYTES_PER_LBA ≤
          divCeil (codec c input).length BYTES_PER_LBA := by
        unfold divCeil
        exact Nat.div_le_div_right (by omega)
      omega
    · simp [if_neg h2]

/-- Claim C10 (amended): `put_common` asserts that the serialized length is
strictly below `u32::MAX = 2^32 − 1`; below that bound it produces the DRP
with `lsize`/`csize` stored exactly (no `u32` truncation occurs), and at or
above it the assertion aborts instead of producing a DRP. -/
theorem put_common_record_size_limit (hash : Bytes → Nat)
    (codec : Compression → Bytes → Bytes) (poolWrite : Bytes → PBA)
    (compression : Compression) (serialized : Bytes) :
    (serialized.length < 2 ^ 32 - 1 →
      put_common hash codec poolWrite compression serialized =
        some { pba := poolWrite
                 (Compression.compress codec compression serialized).1,
               compressed := (Compression.compress codec compression
                 serialized).2.is_compressed,
               lsize := serialized.length,
               csize := (Compression.compress codec compression
                 serialized).1.length,
               checksum := hash
                 (Compression.compress codec compression serialized).1 }) ∧
    (2 ^ 32 - 1 ≤ serialized.length →
      put_common hash codec poolWrite compression serialized =
        Option.none) := by
  constructor
  · intro h
    have hc : (Compression.compress codec compression serialized).1.length <
        2 ^ 32 :=
      lt_of_le_of_lt (compress_fst_length_le codec compression serialized)
        (by omega)
    simp only [put_common, if_pos h]
    rw [Nat.mod_eq_of_lt hc, Nat.mod_eq_of_lt (by omega)]
  · intro h
    have hnot : ¬ (serialized.length < 2 ^ 32 - 1) := by omega
    simp only [put_common, if_neg hnot]

/-- Witness for C10 (amended), small side: a 2-byte record is stored with
exact sizes. -/
theorem put_common_record_size_limit_witness :
    put_common (fun b => b.length) (fun _ b => b) (fun _ => ⟨0, 9⟩)
        Compression.none [5, 6] =
      some { pba := ⟨0, 9⟩, compressed := false, lsize := 2, csize := 2,
             checksum := 2 } :=
  (put_common_record_size_limit (fun b => b.length) (fun _ b => b)
    (fun _ => ⟨0, 9⟩) Compression.none [5, 6]).1 (by norm_num)

/-- Counterexample for C10 as stated: a record of 2^32 − 1 bytes is strictly
below 2^32, yet `put_common` aborts on its assertion instead of producing a
DRP. -/
theorem put_common_u32_max_counterexample :
    (2 ^ 32 - 1 : Nat) < 2 ^ 32 ∧
    put_common (fun _ => 0) (fun _ b => b) (fun _ => ⟨0, 0⟩)
        Compression.none (List.replicate (2 ^ 32 - 1) 0) = Option.none := by
  constructor
  · norm_num
  · have hlen : (List.replicate (2 ^ 32 - 1) (0 : Nat)).length = 2 ^ 32 - 1 :=
      List.length_replicate _ _
    have hnot :
        ¬ ((List.replicate (2 ^ 32 - 1) (0 : Nat)).length < 2 ^ 32 - 1) := by
      rw [hlen]
      exact Nat.lt_irrefl _
    simp only [put_common, if_neg hnot]

/-- Claim C6: `advance_transaction(f)` invokes `f` with the current txg `T`
and on success the counter becomes exactly `T + 1`; if `f` fails, the error
propagates and the counter remains `T`. -/
theorem advance_transaction_spec (f : Nat → Except Errno Unit) (txg : Nat) :
    (f txg = Except.ok () → advance_transaction f txg = Except.ok (txg + 1)) ∧
    (∀ e, f txg = Except.error e →
      advance_transaction f txg = Except.error e) := by
  constructor
  · intro h
    simp [advance_transaction, h]
  · intro e h
    simp [advance_transaction, h]

/-- Witness for C6: a successful flush advances txg 41 to 42; a failing
flush surfaces its error and produces no new counter. -/
theorem advance_transaction_witness :
    advance_transaction (fun _ => Except.ok ()) 41 = Except.ok 42 ∧
    advance_transaction (fun _ => Except.error Errno.EPIPE) 41 =
      Except.error Errno.EPIPE :=
  ⟨(advance_transaction_spec _ 41).1 rfl,
   (advance_transaction_spec _ 41).2 Errno.EPIPE rfl⟩

/-- Collecting unordered write completions succeeds exactly when every
completion succeeded. -/
theorem collectWrites_ok_iff (l : List (Except Errno Unit)) :
    collectWrites l = Except.ok () ↔ ∀ r ∈ l, r = Except.ok () := by
  induction l with
  | nil => simp [collectWrites]
  | cons r rest ih =>
    cases r with
    | ok u =>
      cases u
      simp [collectWrites, ih]
    | error e => simp [collectWrites]

/-- Claim C7: `Mirror::write_at` issues the write to every child vdev and
the returned future completes successfully if and only if every child's
write succeeds; any single child's failure surfaces as the mirror's
failure. -/
theorem mirror_write_at_all_children {γ : Type} (m : Mirror γ)
    (w : γ → Bytes → Nat → Except Errno Unit) (buf : Bytes) (lba : Nat) :
    Mirror.write_at m w buf lba = Except.ok () ↔
      ∀ blockdev ∈ m.blockdevs, w blockdev buf lba = Except.ok () := by
  unfold Mirror.write_at
  rw [collectWrites_ok_iff]
  simp

/-- Claim C9: `VdevFile::write_at` and `writev_at` abort on any LBA below
`reserved_space = LABEL_COUNT * (LABEL_LBAS + spacemap_space)` — no data
write can target the reserved label/spacemap region — and under the
precondition `lba ≥ reserved_space` the assertion passes and the write is
issued at byte offset `lba * BYTES_PER_LBA`. -/
theorem vdev_file_write_reserved_space (labelLbas : Nat) (v : VdevFile)
    (buf : Bytes) (sglist : List Bytes) (lba : Nat) :
    (lba < v.reserved_space labelLbas →
      v.write_at labelLbas buf lba = Option.none ∧
      v.writev_at labelLbas sglist lba = Option.none) ∧
    (v.reserved_space labelLbas ≤ lba →
      v.write_at labelLbas buf lba = some (lba * BYTES_PER_LBA, buf) ∧
      v.writev_at labelLbas sglist lba =
        some (lba * BYTES_PER_LBA, sglist)) := by
  constructor
  · intro h
    constructor <;>
      simp [VdevFile.write_at, VdevFile.writev_at, Nat.not_le.mpr h]
  · intro h
    constructor <;> simp [VdevFile.write_at, VdevFile.writev_at, h]

/-- Witness for C9: with `spacemap_space = 3` and `LABEL_LBAS = 5` the
reserved region is 16 LBAs; LBA 16 is written at byte offset 65536 and LBA
15 aborts. -/
theorem vdev_file_write_reserved_space_witness :
    VdevFile.write_at 5 ⟨3⟩ [0] 16 = some (65536, [0]) ∧
    VdevFile.write_at 5 ⟨3⟩ [0] 15 = Option.none :=
  ⟨((vdev_file_write_reserved_space 5 ⟨3⟩ [0] [] 16).2
      (by norm_num [VdevFile.reserved_space, LABEL_COUNT])).1,
   ((vdev_file_write_reserved_space 5 ⟨3⟩ [0] [] 15).1
      (by norm_num [VdevFile.reserved_space, LABEL_COUNT])).1⟩

/-- Claim C3 (amended): on a cache miss for the DRP's PBA, a checksum
mismatch over the first `csize` bytes returned by the Pool read makes
`DDML::get` fail with `EINTEGRITY` and leave the cache untouched; on a
match, the value is decompressed exactly when the DRP's compressed flag is
set, and is inserted into the cache. -/
theorem ddml_get_checksum_integrity {α : Type} (hash : Bytes → Nat)
    (decomp : Bytes → Bytes) (disk : PBA → Bytes) (deserialize : Bytes → α)
    (cache : Cache α) (drp : DRP)
    (hmiss : alLookup cache (CacheKey.pba drp.pba) = Option.none) :
    (hash ((disk drp.pba).take drp.csize) ≠ drp.checksum →
      DDML.get hash decomp disk deserialize cache drp =
        (Except.error Errno.EINTEGRITY, cache)) ∧
    (hash ((disk drp.pba).take drp.csize) = drp.checksum →
      DDML.get hash decomp disk deserialize cache drp =
        (Except.ok (deserialize (if drp.compressed then
            decomp ((disk drp.pba).take drp.csize)
          else (disk drp.pba).take drp.csize)),
         alInsert cache (CacheKey.pba drp.pba)
           (deserialize (if drp.compressed then
              decomp ((disk drp.pba).take drp.csize)
            else (disk drp.pba).take drp.csize)))) := by
  constructor
  · intro h
    simp only [DDML.get, hmiss]
    simp [DDML.read, h]
  · intro h
    simp only [DDML.get, hmiss]
    by_cases hc : drp.compressed <;> simp [DDML.read, h, hc]

/-- Witness for C3 (amended): with the empty cache, a stored checksum of 7
against a computed checksum of 2 fails with `EINTEGRITY` and inserts
nothing; a stored checksum of 2 succeeds and caches the value. -/
theorem ddml_get_checksum_integrity_witness :
    DDML.get (fun b => b.length) (fun b => b) (fun _ => [9, 9])
        (fun b => b.length) ([] : Cache Nat) ⟨⟨0, 5⟩, false, 0, 2, 7⟩ =
      (Except.error Errno.EINTEGRITY, []) ∧
    DDML.get (fun b => b.length) (fun b => b) (fun _ => [9, 9])
        (fun b => b.length) ([] : Cache Nat) ⟨⟨0, 5⟩, false, 0, 2, 2⟩ =
      (Except.ok 2, [(CacheKey.pba ⟨0, 5⟩, 2)]) :=
  ⟨(ddml_get_checksum_integrity (fun b => b.length) (fun b => b)
      (fun _ => [9, 9]) (fun b => b.length) [] ⟨⟨0, 5⟩, false, 0, 2, 7⟩
      rfl).1 (by decide),
   (ddml_get_checksum_integrity (fun b => b.length) (fun b => b)
      (fun _ => [9, 9]) (fun b => b.length) [] ⟨⟨0, 5⟩, false, 0, 2, 2⟩
      rfl).2 (by decide)⟩

/-- Counterexample for C3 as stated: for a DRP whose stored checksum (7)
differs from the hash of the first `csize` bytes returned by the Pool read
(2), `DDML::get` nevertheless succeeds — returning the previously cached
value for that PBA — instead of failing with `EINTEGRITY`. -/
theorem ddml_get_checksum_counterexample :
    (fun b : Bytes => b.length)
        (((fun _ : PBA => ([9, 9] : Bytes)) (⟨0, 5⟩ : PBA)).take 2) ≠ 7 ∧
    DDML.get (fun b => b.length) (fun b => b) (fun _ => [9, 9])
        (fun b => b.length) ([(CacheKey.pba ⟨0, 5⟩, 42)] : Cache Nat)
        ⟨⟨0, 5⟩, false, 0, 2, 7⟩ =
      (Except.ok 42, [(CacheKey.pba ⟨0, 5⟩, 42)]) :=
  ⟨by decide, rfl⟩

/-! ### Association-list lemmas shared by the IDML invariant proofs -/

theorem mem_alErase [DecidableEq κ] {l : List (κ × β)} {k : κ}
    {p : κ × β} : p ∈ alErase l k ↔ p ∈ l ∧ p.1 ≠ k := by
  simp [alErase, List.mem_filter]

theorem mem_alInsert [DecidableEq κ] {l : List (κ × β)} {k : κ} {v : β}
    {p : κ × β} : p ∈ alInsert l k v ↔ p = (k, v) ∨ (p ∈ l ∧ p.1 ≠ k) := by
  simp [alInsert, mem_alErase]

theorem alLookup_alErase [DecidableEq κ] (l : List (κ × β)) (k k2 : κ) :
    alLookup (alErase l k) k2 =
      if k2 = k then Option.none else alLookup l k2 := by
  induction l with
  | nil => simp [alErase, alLookup]
  | cons p rest ih =>
    by_cases hp : p.1 = k
    · have hfilter : alErase (p :: rest) k = alErase rest k := by
        simp [alErase, List.filter_cons, hp]
      rw [hfilter, ih]
      by_cases hk : k2 = k
      · simp [hk]
      · have hne : p.1 ≠ k2 := by
          rw [hp]
          exact fun hcon => hk hcon.symm
        simp [hk, alLookup, hne]
    · have hfilter : alErase (p :: rest) k = p :: alErase rest k := by
        simp [alErase, List.filter_cons, hp]
      rw [hfilter]
      by_cases hpk : p.1 = k2
      · have hk : ¬ k2 = k := fun hcon => hp (hpk.trans hcon)
        simp [alLookup, hpk, hk]
      · simp [alLookup, hpk, ih]

theorem alLookup_alInsert [DecidableEq κ] (l : List (κ × β)) (k k2 : κ)
    (v : β) :
    alLookup (alInsert l k v) k2 =
      if k2 = k then some v else alLookup l k2 := by
  by_cases hk : k2 = k
  · simp [alInsert, alLookup, hk]
  · have hne : k ≠ k2 := fun hcon => hk hcon.symm
    simp only [alInsert, alLookup, if_neg hne, alLookup_alErase, if_neg hk]

theorem alLookup_mem [DecidableEq κ] {l : List (κ × β)} {k : κ} {v : β}
    (h : alLookup l k = some v) : (k, v) ∈ l := by
  induction l with
  | nil => simp [alLookup] at h
  | cons p rest ih =>
    by_cases hp : p.1 = k
    · simp only [alLookup, if_pos hp] at h
      have hpv : p = (k, v) := by
        cases p
        simp only [Option.some.injEq] at h
        simp_all
      rw [← hpv]
      exact List.mem_cons_self _ _
    · simp only [alLookup, if_neg hp] at h
      exact List.mem_cons_of_mem _ (ih h)

/-! ### Preservation of the RIDT/AllocT invariant (claim C2) -/

/-- Removing a record (the refcount-reaches-zero branches of `IDML::delete`
and `IDML::pop`) preserves the invariant and the freshness facts. -/
theorem remove_state_preserves {V : Type} {s : IdmlState V} {rid0 : Nat}
    {entry : RidtEntry} (hridt : alLookup s.ridt rid0 = some entry)
    (hn : entry.refcount ≠ 0) (hs : Inv s ∧ Fresh s)
    (cache2 : List (Nat × V)) :
    Inv (⟨alErase s.ridt rid0, alErase s.alloct entry.drp.pba, cache2,
        ⟨alErase s.ddml.store entry.drp.pba, s.ddml.next_lba⟩,
        s.next_rid⟩ : IdmlState V) ∧
    Fresh (⟨alErase s.ridt rid0, alErase s.alloct entry.drp.pba, cache2,
        ⟨alErase s.ddml.store entry.drp.pba, s.ddml.next_lba⟩,
        s.next_rid⟩ : IdmlState V) := by
  obtain ⟨⟨hinv1, hinv2⟩, hfa, hfs, hfr⟩ := hs
  have hmem : (rid0, entry) ∈ s.ridt := alLookup_mem hridt
  have halloc : alLookup s.alloct entry.drp.pba = some rid0 :=
    hinv1 _ hmem (Nat.pos_of_ne_zero hn)
  refine ⟨⟨?_, ?_⟩, ?_, ?_, ?_⟩
  · intro p hp hpos
    rw [mem_alErase] at hp
    obtain ⟨hpmem, hpne⟩ := hp
    have hold := hinv1 p hpmem hpos
    have hne : p.2.drp.pba ≠ entry.drp.pba := by
      intro heq
      rw [heq, halloc] at hold
      exact hpne (Option.some.inj hold).symm
    rw [alLookup_alErase, if_neg hne]
    exact hold
  · intro q hq
    rw [mem_alErase] at hq
    obtain ⟨hqmem, hqne⟩ := hq
    have hold := hinv2 q hqmem
    have hne : q.2 ≠ rid0 := by
      intro heq
      rw [heq, hridt] at hold
      simp only [Option.map] at hold
      exact hqne (Option.some.inj hold).symm
    rw [alLookup_alErase, if_neg hne]
    exact hold
  · intro q hq
    rw [mem_alErase] at hq
    exact hfa q hq.1
  · intro q hq
    rw [mem_alErase] at hq
    exact hfs q hq.1
  · intro p hp
    rw [mem_alErase] at hp
    exact hfr p hp.1

/-- Re-inserting a RIDT entry with the same DRP and a different refcount
(the decrement branches of `IDML::delete` and `IDML::pop`) preserves the
invariant and the freshness facts. -/
theorem decrement_state_preserves {V : Type} {s : IdmlState V} {rid0 : Nat}
    {entry : RidtEntry} (hridt : alLookup s.ridt rid0 = some entry)
    (hn : entry.refcount ≠ 0) (hs : Inv s ∧ Fresh s) (n : Nat) :
    Inv ({ s with ridt := alInsert s.ridt rid0 ⟨entry.drp, n⟩ } :
        IdmlState V) ∧
    Fresh ({ s with ridt := alInsert s.ridt rid0 ⟨entry.drp, n⟩ } :
        IdmlState V) := by
  obtain ⟨⟨hinv1, hinv2⟩, hfa, hfs, hfr⟩ := hs
  have hmem : (rid0, entry) ∈ s.ridt := alLookup_mem hridt
  have halloc : alLookup s.alloct entry.drp.pba = some rid0 :=
    hinv1 _ hmem (Nat.pos_of_ne_zero hn)
  refine ⟨⟨?_, ?_⟩, ?_, ?_, ?_⟩
  · intro p hp _
    rw [mem_alInsert] at hp
    rcases hp with hnew | ⟨hpmem, hpne⟩
    · subst hnew
      exact halloc
    · exact hinv1 p hpmem (by
        by_contra hzero
        push_neg at hzero
        omega)
  · intro q hq
    have hold := hinv2 q hq
    rw [alLookup_alInsert]
    by_cases hqr : q.2 = rid0
    · rw [hqr, hridt] at hold
      simp only [Option.map] at hold
      rw [if_pos hqr]
      simpa using hold
    · rw [if_neg hqr]
      exact hold
  · exact hfa
  · exact hfs
  · intro p hp
    rw [mem_alInsert] at hp
    rcases hp with hnew | ⟨hpmem, _⟩
    · subst hnew
      exact hfr (rid0, entry) hmem
    · exact hfr p hpmem

/-- `IDML::put` preserves the invariant and the freshness facts. -/
theorem idml_put_preserves {V : Type} {s t : IdmlState V} {v : V}
    {compression : Compression} {txg rid : Nat}
    (hs : Inv s ∧ Fresh s)
    (h : IDML.put v compression txg s = some (Except.ok (rid, t))) :
    Inv t ∧ Fresh t := by
  obtain ⟨⟨hinv1, hinv2⟩, hfa, hfs, hfr⟩ := hs
  simp only [IDML.put, DdmlState.put_direct] at h
  split_ifs at h
  simp only [Option.some.injEq, Except.ok.injEq, Prod.mk.injEq] at h
  obtain ⟨hrid, ht⟩ := h
  subst ht
  refine ⟨⟨?_, ?_⟩, ?_, ?_, ?_⟩
  · intro p hp hpos
    rw [mem_alInsert] at hp
    rcases hp with hnew | ⟨hpmem, hpne⟩
    · subst hnew
      simp [alLookup_alInsert]
    · have hne : p.2.drp.pba ≠ (⟨0, s.ddml.next_lba⟩ : PBA) := by
        intro heq
        have := (hfr p hpmem).2
        rw [heq] at this
        exact Nat.lt_irrefl _ this
      rw [alLookup_alInsert, if_neg hne]
      exact hinv1 p hpmem hpos
  · intro q hq
    rw [mem_alInsert] at hq
    rcases hq with hnew | ⟨hqmem, hqne⟩
    · subst hnew
      simp [alLookup_alInsert]
    · have hold := hinv2 q hqmem
      have hqr : q.2 ≠ s.next_rid := by
        intro heq
        cases hlq : alLookup s.ridt q.2 with
        | none => rw [hlq] at hold; simp at hold
        | some e =>
          have := (hfr _ (alLookup_mem hlq)).1
          omega
      rw [alLookup_alInsert, if_neg hqr]
      exact hold
  · intro q hq
    rw [mem_alInsert] at hq
    rcases hq with hnew | ⟨hqmem, _⟩
    · subst hnew
      simp
    · exact Nat.lt_succ_of_lt (hfa q hqmem)
  · intro q hq
    rw [mem_alInsert] at hq
    rcases hq with hnew | ⟨hqmem, _⟩
    · subst hnew
      simp
    · exact Nat.lt_succ_of_lt (hfs q hqmem)
  · intro p hp
    rw [mem_alInsert] at hp
    rcases hp with hnew | ⟨hpmem, _⟩
    · subst hnew
      simp
    · exact ⟨Nat.lt_succ_of_lt (hfr p hpmem).1,
        Nat.lt_succ_of_lt (hfr p hpmem).2⟩

/-- `IDML::delete` preserves the invariant and the freshness facts. -/
theorem idml_delete_preserves {V : Type} {s t : IdmlState V} {rid0 txg : Nat}
    (hs : Inv s ∧ Fresh s)
    (h : IDML.delete rid0 txg s = some (Except.ok ((), t))) :
    Inv t ∧ Fresh t := by
  cases hridt : alLookup s.ridt rid0 with
  | none => simp only [IDML.delete, hridt] at h; simp at h
  | some entry =>
    simp only [IDML.delete, hridt] at h
    by_cases h0 : entry.refcount = 0
    · rw [if_pos h0] at h
      simp at h
    · rw [if_neg h0] at h
      by_cases h1 : entry.refcount - 1 = 0
      · rw [if_pos h1] at h
        by_cases h2 : (alLookup s.alloct entry.drp.pba).isSome = true
        · rw [if_pos h2] at h
          simp only [Option.some.injEq, Except.ok.injEq, Prod.mk.injEq] at h
          rw [← h.2]
          exact remove_state_preserves hridt h0 hs _
        · rw [if_neg h2] at h
          simp at h
      · rw [if_neg h1] at h
        simp only [Option.some.injEq, Except.ok.injEq, Prod.mk.injEq] at h
        rw [← h.2]
        exact decrement_state_preserves hridt h0 hs _

/-- `IDML::pop` preserves the invariant and the freshness facts. -/
theorem idml_pop_preserves {V : Type} {s t : IdmlState V} {rid0 txg : Nat}
    {v : V} (hs : Inv s ∧ Fresh s)
    (h : IDML.pop rid0 txg s = some (Except.ok (v, t))) :
    Inv t ∧ Fresh t := by
  cases hridt : alLookup s.ridt rid0 with
  | none => simp only [IDML.pop, hridt] at h; simp at h
  | some entry =>
    simp only [IDML.pop, hridt] at h
    by_cases h0 : entry.refcount = 0
    · rw [if_pos h0] at h
      simp at h
    · rw [if_neg h0] at h
      by_cases h1 : entry.refcount - 1 = 0
      · rw [if_pos h1] at h
        cases hcache : alLookup s.cache rid0 with
        | some v0 =>
          simp only [hcache] at h
          by_cases h2 : (alLookup s.alloct entry.drp.pba).isSome = true
          · rw [if_pos h2] at h
            simp only [Option.some.injEq, Except.ok.injEq,
              Prod.mk.injEq] at h
            rw [← h.2]
            exact remove_state_preserves hridt h0 hs _
          · rw [if_neg h2] at h
            simp at h
        | none =>
          simp only [hcache] at h
          cases hstore : alLookup s.ddml.store entry.drp.pba with
          | none => simp only [hstore] at h; simp at h
          | some v1 =>
            simp only [hstore] at h
            by_cases h2 : (alLookup s.alloct entry.drp.pba).isSome = true
            · rw [if_pos h2] at h
              simp only [Option.some.injEq, Except.ok.injEq,
                Prod.mk.injEq] at h
              rw [← h.2]
              exact remove_state_preserves hridt h0 hs _
            · rw [if_neg h2] at h
              simp at h
      · rw [if_neg h1] at h
        cases hcache : alLookup s.cache rid0 with
        | some v0 =>
          simp only [hcache] at h
          simp only [Option.some.injEq, Except.ok.injEq, Prod.mk.injEq] at h
          rw [← h.2]
          exact decrement_state_preserves hridt h0 hs _
        | none =>
          simp only [hcache] at h
          cases hstore : alLookup s.ddml.store entry.drp.pba with
          | none => simp only [hstore] at h; simp at h
          | some v1 =>
            simp only [hstore] at h
            simp only [Option.some.injEq, Except.ok.injEq,
              Prod.mk.injEq] at h
            rw [← h.2]
            exact decrement_state_preserves hridt h0 hs _

/-- Every state reachable by successful `put`, `delete` and `pop`
operations satisfies the invariant and the freshness facts. -/
theorem reach_strong_invariant {V : Type} {s : IdmlState V} (h : Reach s) :
    Inv s ∧ Fresh s := by
  induction h with
  | empty =>
    refine ⟨⟨?_, ?_⟩, ?_, ?_, ?_⟩ <;> intro p hp <;>
      simp [IdmlState.empty] at hp
  | put s v compression txg rid t _ heq ih => exact idml_put_preserves ih heq
  | delete s rid txg t _ heq ih => exact idml_delete_preserves ih heq
  | pop s rid txg v t _ heq ih => exact idml_pop_preserves ih heq

/-- Claim C2 (amended): starting from an empty IDML, the RIDT/AllocT
mutual-consistency invariant is preserved by every successfully completing
`put`, `delete` and `pop`: each RIDT entry with positive refcount is mapped
back by the AllocT from its DRP's PBA, and each AllocT entry points at the
RIDT entry whose DRP carries exactly that PBA.  (`move_record` is excluded:
it leaves the old AllocT entry in place, see the counterexample.) -/
theorem idml_ridt_alloct_invariant {V : Type} (s : IdmlState V)
    (h : Reach s) : Inv s :=
  (reach_strong_invariant h).1

/-- Witness for C2 (amended): the state after one `put` on the empty IDML
is reachable and satisfies the invariant. -/
theorem idml_ridt_alloct_invariant_witness :
    Inv (⟨[(0, ⟨⟨⟨0, 0⟩, false, 0, 0, 0⟩, 1⟩)], [(⟨0, 0⟩, 0)], [(0, 42)],
      ⟨[(⟨0, 0⟩, 42)], 1⟩, 1⟩ : IdmlState Nat) :=
  idml_ridt_alloct_invariant _
    (Reach.put (IdmlState.empty Nat) 42 Compression.none 0 0 _
      Reach.empty rfl)

/-- Counterexample for C2 as stated: starting from the empty IDML, one
`put` (yielding RID 0 at PBA (0,0)) followed by one `move_record` (moving
the record to PBA (0,1)) reaches a state violating the invariant — the
stale AllocT entry for PBA (0,0) still maps to RID 0, whose RIDT entry now
carries PBA (0,1). -/
theorem idml_move_record_invariant_counterexample :
    IDML.put 42 Compression.none 0 (IdmlState.empty Nat) =
      some (Except.ok (0,
        ⟨[(0, ⟨⟨⟨0, 0⟩, false, 0, 0, 0⟩, 1⟩)], [(⟨0, 0⟩, 0)], [(0, 42)],
          ⟨[(⟨0, 0⟩, 42)], 1⟩, 1⟩)) ∧
    IDML.move_record 0 0
        (⟨[(0, ⟨⟨⟨0, 0⟩, false, 0, 0, 0⟩, 1⟩)], [(⟨0, 0⟩, 0)], [(0, 42)],
          ⟨[(⟨0, 0⟩, 42)], 1⟩, 1⟩ : IdmlState Nat) =
      some (Except.ok ((),
        ⟨[(0, ⟨⟨⟨0, 1⟩, false, 0, 0, 0⟩, 1⟩)],
          [(⟨0, 1⟩, 0), (⟨0, 0⟩, 0)], [(0, 42)],
          ⟨[(⟨0, 1⟩, 42), (⟨0, 0⟩, 42)], 2⟩, 1⟩)) ∧
    ¬ Inv (⟨[(0, ⟨⟨⟨0, 1⟩, false, 0, 0, 0⟩, 1⟩)],
          [(⟨0, 1⟩, 0), (⟨0, 0⟩, 0)], [(0, 42)],
          ⟨[(⟨0, 1⟩, 42), (⟨0, 0⟩, 42)], 2⟩, 1⟩ : IdmlState Nat) := by
  refine ⟨rfl, rfl, ?_⟩
  intro hinv
  have := hinv.2 (⟨0, 0⟩, 0) (by simp)
  simp [alLookup] at this

/-- Claim C1: for a RID present in the RIDT with refcount `n` (and its
record value available), `IDML::pop` decrements the refcount: at `n = 1` it
removes both the RIDT entry and the AllocT entry for the DRP's PBA, frees
the DRP's storage and returns the value; at `n ≥ 2` it re-inserts the entry
with refcount `n − 1`, leaves the DRP, the AllocT and the DDML unchanged,
and returns the value. -/
theorem idml_pop_refcount {V : Type} (rid txg : Nat) (s : IdmlState V)
    (entry : RidtEntry) (v : V)
    (hr : alLookup s.ridt rid = some entry)
    (hv : (alLookup s.cache rid).orElse
        (fun _ => alLookup s.ddml.store entry.drp.pba) = some v)
    (ha : (alLookup s.alloct entry.drp.pba).isSome = true) :
    (entry.refcount = 1 →
      IDML.pop rid txg s = some (Except.ok (v,
        { ridt := alErase s.ridt rid,
          alloct := alErase s.alloct entry.drp.pba,
          cache := alErase s.cache rid,
          ddml := ⟨alErase s.ddml.store entry.drp.pba, s.ddml.next_lba⟩,
          next_rid := s.next_rid }))) ∧
    (2 ≤ entry.refcount →
      IDML.pop rid txg s = some (Except.ok (v,
        { s with ridt :=
            alInsert s.ridt rid ⟨entry.drp, entry.refcount - 1⟩ }))) := by
  constructor
  · intro h1
    simp only [IDML.pop, hr]
    rw [if_neg (by omega), if_pos (by omega)]
    cases hcache : alLookup s.cache rid with
    | some v0 =>
      have hv0 : v0 = v := by
        rw [hcache] at hv
        simpa [Option.orElse] using hv
      subst hv0
      simp [ha, DdmlState.delete]
    | none =>
      rw [hcache] at hv
      simp only [Option.orElse, Option.none_orElse] at hv
      rw [hv]
      simp [ha]
  · intro h2
    simp only [IDML.pop, hr]
    rw [if_neg (by omega), if_neg (by omega)]
    cases hcache : alLookup s.cache rid with
    | some v0 =>
      have hv0 : v0 = v := by
        rw [hcache] at hv
        simpa [Option.orElse] using hv
      subst hv0
      rfl
    | none =>
      rw [hcache] at hv
      simp only [Option.orElse, Option.none_orElse] at hv
      rw [hv]

/-- Witness for C1: popping RID 0 at refcount 1 empties the tables and
frees the storage; popping at refcount 2 re-inserts with refcount 1 and
leaves AllocT and storage unchanged. -/
theorem idml_pop_refcount_witness :
    IDML.pop 0 7
        (⟨[(0, ⟨⟨⟨0, 0⟩, false, 0, 0, 0⟩, 1⟩)], [(⟨0, 0⟩, 0)], [(0, 42)],
          ⟨[(⟨0, 0⟩, 42)], 1⟩, 1⟩ : IdmlState Nat) =
      some (Except.ok (42, ⟨[], [], [], ⟨[], 1⟩, 1⟩)) ∧
    IDML.pop 0 7
        (⟨[(0, ⟨⟨⟨0, 0⟩, false, 0, 0, 0⟩, 2⟩)], [(⟨0, 0⟩, 0)], [(0, 42)],
          ⟨[(⟨0, 0⟩, 42)], 1⟩, 1⟩ : IdmlState Nat) =
      some (Except.ok (42,
        ⟨[(0, ⟨⟨⟨0, 0⟩, false, 0, 0, 0⟩, 1⟩)], [(⟨0, 0⟩, 0)], [(0, 42)],
          ⟨[(⟨0, 0⟩, 42)], 1⟩, 1⟩)) :=
  ⟨(idml_pop_refcount 0 7
      (⟨[(0, ⟨⟨⟨0, 0⟩, false, 0, 0, 0⟩, 1⟩)], [(⟨0, 0⟩, 0)], [(0, 42)],
        ⟨[(⟨0, 0⟩, 42)], 1⟩, 1⟩ : IdmlState Nat)
      ⟨⟨⟨0, 0⟩, false, 0, 0, 0⟩, 1⟩ 42 rfl rfl rfl).1 rfl,
   (idml_pop_refcount 0 7
      (⟨[(0, ⟨⟨⟨0, 0⟩, false, 0, 0, 0⟩, 2⟩)], [(⟨0, 0⟩, 0)], [(0, 42)],
        ⟨[(⟨0, 0⟩, 42)], 1⟩, 1⟩ : IdmlState Nat)
      ⟨⟨⟨0, 0⟩, false, 0, 0, 0⟩, 2⟩ 42 rfl rfl rfl).2 (by norm_num)⟩

end BFFFS
